import Mathlib

/-!
Verification development for the bigif engine core (graph.go).

Strings are modelled as `List Char` (`Str`); Go maps as association lists
with update-or-append assignment (`setEntry`) and defaulting reads, which
matches Go map semantics wherever the source only reads, writes and
iterates (all iteration points in the source are order-insensitive:
`generateNodeID` sorts, state copies build a map, purge writes a constant).
Machine strings functions (`strings.Split`, `strings.TrimSpace`,
`strings.Contains`, `strings.TrimPrefix`) are embedded as executable
functions on `List Char`.  `applyStateChanges` indexes `parts[1]`, which
panics in Go when the mutation has no `=`; the embedding returns `Option`
(`none` = panic).  `buildGraph`'s breadth-first loop is embedded with
explicit fuel; `BuildResult.outOfFuel` is an embedding artifact and every
theorem about a finished run is conditioned on an `ok`/`err` outcome.
-/

set_option maxHeartbeats 1000000

abbrev Str := List Char

def str (s : String) : Str := s.data

/-- Embedding of Go `strings.TrimSpace` (trims whitespace on both ends). -/
def chTrim (s : Str) : Str :=
  ((s.dropWhile Char.isWhitespace).reverse.dropWhile Char.isWhitespace).reverse

/-- Embedding of Go `strings.Split` with a one-character separator: scan
left to right, breaking at each occurrence (all separators in graph.go
have one or two characters, so the embedding provides exactly those two
arities). -/
def chSplit1 (c : Char) : Str → List Str
  | [] => [[]]
  | a :: rest =>
    if c = a then [] :: chSplit1 c rest
    else
      match chSplit1 c rest with
      | [] => [[a]]
      | p :: ps => (a :: p) :: ps

/-- Embedding of Go `strings.Split` with the two-character separator `cd`:
scan left to right, breaking at each non-overlapping occurrence. -/
def chSplit2 (c d : Char) : Str → List Str
  | [] => [[]]
  | [a] => [[a]]
  | a :: b :: rest =>
    if c = a ∧ d = b then [] :: chSplit2 c d rest
    else
      match chSplit2 c d (b :: rest) with
      | [] => [[a]]
      | p :: ps => (a :: p) :: ps

/-- Embedding of Go `strings.Contains` for a two-character separator. -/
def chContains2 (c d : Char) : Str → Bool
  | [] => false
  | [_] => false
  | a :: b :: rest => if c = a ∧ d = b then true else chContains2 c d (b :: rest)

/-- Embedding of Go `strings.TrimPrefix(s, ".")`. -/
def trimDot (s : Str) : Str :=
  match s with
  | '.' :: rest => rest
  | other => other

abbrev StateMap := List (Str × Bool)

/-- Association-list lookup (Go map read that distinguishes presence). -/
def alookup {β : Type} (k : Str) : List (Str × β) → Option β
  | [] => none
  | (k2, v) :: rest => if k2 = k then some v else alookup k rest

/-- Go map read with the zero value `false` for absent keys. -/
def getState (m : StateMap) (k : Str) : Bool := (alookup k m).getD false

/-- Go map assignment: overwrite the existing entry or append a new one. -/
def setEntry {β : Type} (m : List (Str × β)) (k : Str) (v : β) : List (Str × β) :=
  if (alookup k m).isSome then
    m.map (fun p => if p.1 = k then (k, v) else p)
  else m ++ [(k, v)]

def keysOf {β : Type} (m : List (Str × β)) : List Str := m.map (·.1)

/-- AST `Choice` (ast.go). -/
structure Choice where
  text : Str
  condition : Str
  stateChanges : List Str
  targetKnot : Str
  stitch : Str
deriving DecidableEq

/-- AST `TextBlock` (ast.go). -/
structure TextBlock where
  condition : Str
  content : Str
deriving DecidableEq

/-- AST `Knot` (ast.go). -/
structure Knot where
  name : Str
  scene : Str
  body : List TextBlock
  choices : List Choice
  isEnd : Bool
deriving DecidableEq

/-- AST `Script` (ast.go); metadata is pass-through and not used by buildGraph. -/
structure Script where
  globalStates : List (Str × Bool)
  localStates : List (Str × Bool)
  knots : List (Str × Knot)
deriving DecidableEq

/-- Output `StoryEdge` (story_graph.go). -/
structure StoryEdge where
  text : Str
  targetNodeID : Str
  stitch : Str
deriving DecidableEq

/-- Output `StoryNode` (story_graph.go). -/
structure StoryNode where
  knotName : Str
  scene : Str
  state : StateMap
  content : Str
  edges : List StoryEdge
  isEnd : Bool
deriving DecidableEq

/-- One conjunct of `evaluateCondition`: trim, pick the operator by the first
matching `Contains` test, split, compare against the state (absent reads
default to `false`); a part with neither operator makes the whole
condition false (the Go loop returns false there). -/
def evalPart (st : StateMap) (rawPart : Str) : Bool :=
  let part := chTrim rawPart
  if chContains2 '!' '=' part then
    let vals := chSplit2 '!' '=' part
    let stateName := chTrim (vals.headD [])
    let valueStr := chTrim ((vals.drop 1).headD [])
    let expectedValue := decide (valueStr = str "true")
    let actualValue := getState st stateName
    actualValue != expectedValue
  else if chContains2 '=' '=' part then
    let vals := chSplit2 '=' '=' part
    let stateName := chTrim (vals.headD [])
    let valueStr := chTrim ((vals.drop 1).headD [])
    let expectedValue := decide (valueStr = str "true")
    let actualValue := getState st stateName
    actualValue == expectedValue
  else false

/-- Embedding of `evaluateCondition` (graph.go): split on `&&`, every
conjunct must hold. -/
def evaluateCondition (condition : Str) (st : StateMap) : Bool :=
  (chSplit2 '&' '&' condition).all (evalPart st)

/-- One iteration of the mutation loop in `applyStateChanges`.  Go indexes
`parts[1]` unconditionally, which panics when the change contains no `=`;
that panic is the `none` branch here.  A false-setting mutation of a
flag-class variable (GlobalStates value `true`) is skipped. -/
def applyChange (ast : Script) (st : StateMap) (change : Str) : Option StateMap :=
  let parts := chSplit1 '=' change
  let stateName := chTrim (parts.headD [])
  match (parts.drop 1).head? with
  | none => none
  | some second =>
    let newValue := decide (chTrim second = str "true")
    match alookup stateName ast.globalStates with
    | some isFlagVal =>
      if isFlagVal && !newValue then some st
      else some (setEntry st stateName newValue)
    | none => some (setEntry st stateName newValue)

/-- Embedding of `applyStateChanges` (graph.go): copy the state, then apply
the mutations left to right. -/
def applyStateChanges (currentState : StateMap) (choice : Choice) (ast : Script) :
    Option StateMap :=
  choice.stateChanges.foldlM (fun st change => applyChange ast st change) currentState

/-- Body selection inside `createNode`: first text block whose condition is
empty or evaluates true; content stays empty when none matches. -/
def selectContent (st : StateMap) : List TextBlock → Str
  | [] => []
  | b :: rest =>
    if decide (b.condition = []) || evaluateCondition b.condition st then b.content
    else selectContent st rest

/-- Embedding of `createNode` (graph.go); the Go error return is always nil. -/
def createNode (knotName : Str) (knot : Knot) (st : StateMap) : StoryNode :=
  { knotName := knotName, scene := knot.scene, state := st, isEnd := knot.isEnd,
    edges := [], content := selectContent st knot.body }

/-- Go `sort.Strings` order: lexicographic comparison. -/
def strLeB : Str → Str → Bool
  | [], _ => true
  | _ :: _, [] => false
  | a :: as, b :: bs => if a < b then true else if b < a then false else strLeB as bs

def StrLe (a b : Str) : Prop := strLeB a b = true

instance : DecidableRel StrLe := fun a b => by unfold StrLe; infer_instance

def boolStr (b : Bool) : Str := if b then str "true" else str "false"

/-- Go `strings.Join(parts, ",")`. -/
def joinComma : List Str → Str
  | [] => []
  | [p] => p
  | p :: rest => p ++ ',' :: joinComma rest

/-- Embedding of `generateNodeID` (graph.go): sort the keys, render
`name=bool` parts, join with `,`, and prepend `knotName|`. -/
def generateNodeID (knotName : Str) (st : StateMap) : Str :=
  let sortedKeys := List.insertionSort StrLe (keysOf st)
  let stateParts := sortedKeys.map (fun k => k ++ '=' :: boolStr (getState st k))
  knotName ++ '|' :: joinComma stateParts

def pairOf (n : StoryNode) : Str × StateMap := (n.knotName, n.state)

def idOfPair (p : Str × StateMap) : Str := generateNodeID p.1 p.2

def noEntryMsg : Str := str "script must contain a starting knot named index"

def missingKnotMsg (t : Str) : Str := str "choice leads to non-existent knot: " ++ t

/-- Outcome of one step of the builder: normal value, structural error
(Go `fmt.Errorf` return) or runtime panic. -/
inductive StepRes (α : Type) where
  | ok (val : α)
  | err (msg : Str)
  | panicked
deriving DecidableEq

/-- Destination resolution inside the choice loop of `buildGraph`:
a stitch redirects to the knot named by the stitch with the leading `.`
trimmed; otherwise the explicit target; otherwise the same knot when the
choice mutates state; otherwise the choice is dropped. -/
def resolveTargetName (choice : Choice) (currentKnotName : Str) : Option Str :=
  let t := if choice.stitch ≠ [] then trimDot choice.stitch else choice.targetKnot
  if t ≠ [] then some t
  else if choice.stateChanges.length > 0 then some currentKnotName
  else none

/-- Scene purge in `buildGraph`: set every local-class variable to false. -/
def purgeLocals (ast : Script) (st : StateMap) : StateMap :=
  ast.localStates.foldl (fun acc p => setEntry acc p.1 false) st

/-- The per-choice logic of the `buildGraph` loop up to (but not including)
node/edge bookkeeping: condition guard, state transition (panic on a
malformed mutation), destination resolution, existence check (structural
error), scene purge. -/
def choiceStep (ast : Script) (currentKnot : Knot) (p : Str × StateMap) (choice : Choice) :
    StepRes (Option (Str × Knot × StateMap)) :=
  if choice.condition ≠ [] ∧ evaluateCondition choice.condition p.2 = false then .ok none
  else
    match applyStateChanges p.2 choice ast with
    | none => .panicked
    | some nextState =>
      match resolveTargetName choice p.1 with
      | none => .ok none
      | some targetKnotName =>
        match alookup targetKnotName ast.knots with
        | none => .err (missingKnotMsg targetKnotName)
        | some targetKnot =>
          let purged :=
            if currentKnot.scene ≠ targetKnot.scene then purgeLocals ast nextState
            else nextState
          .ok (some (targetKnotName, targetKnot, purged))

/-- Working state of the breadth-first loop: the accumulated graph map, the
visited set, the pending queue, and the edge list of the node being
processed. -/
structure Work where
  graph : List (Str × StoryNode)
  visited : List Str
  queue : List StoryNode
  edges : List StoryEdge
deriving DecidableEq

/-- Bookkeeping for one choice of the dequeued node: append the edge, and
register/enqueue the destination node when its identity is unvisited. -/
def processChoice (ast : Script) (currentKnot : Knot) (cur : StoryNode) (w : Work)
    (choice : Choice) : StepRes Work :=
  match choiceStep ast currentKnot (pairOf cur) choice with
  | .err m => .err m
  | .panicked => .panicked
  | .ok none => .ok w
  | .ok (some (targetKnotName, targetKnot, nextState)) =>
    let nextNode := createNode targetKnotName targetKnot nextState
    let nextNodeID := generateNodeID targetKnotName nextState
    let edge : StoryEdge :=
      { text := choice.text, targetNodeID := nextNodeID, stitch := choice.stitch }
    let w2 : Work := { w with edges := w.edges ++ [edge] }
    if nextNodeID ∈ w2.visited then .ok w2
    else .ok { graph := setEntry w2.graph nextNodeID nextNode,
               visited := nextNodeID :: w2.visited,
               queue := w2.queue ++ [nextNode],
               edges := w2.edges }

def processChoices (ast : Script) (currentKnot : Knot) (cur : StoryNode) (w : Work) :
    List Choice → StepRes Work
  | [] => .ok w
  | c :: rest =>
    match processChoice ast currentKnot cur w c with
    | .ok w2 => processChoices ast currentKnot cur w2 rest
    | .err m => .err m
    | .panicked => .panicked

/-- Result of `buildGraph`: the graph, a structural error, a Go runtime
panic, or fuel exhaustion (embedding artifact only). -/
inductive BuildResult where
  | ok (graph : List (Str × StoryNode))
  | err (msg : Str)
  | panicked
  | outOfFuel
deriving DecidableEq

/-- The while-loop of `buildGraph` with explicit fuel: dequeue, process all
choices of the node's knot, write the accumulated edges back into the
node's graph entry.  A dequeued node whose knot is absent would be a Go
nil-pointer dereference; it is unreachable under the builder invariant. -/
def runQueue (ast : Script) : Nat → List (Str × StoryNode) → List Str → List StoryNode →
    BuildResult
  | _, g, _, [] => .ok g
  | 0, _, _, _ :: _ => .outOfFuel
  | fuel + 1, g, visited, cur :: rest =>
    match alookup cur.knotName ast.knots with
    | none => .panicked
    | some currentKnot =>
      match processChoices ast currentKnot cur
          { graph := g, visited := visited, queue := rest, edges := [] }
          currentKnot.choices with
      | .err m => .err m
      | .panicked => .panicked
      | .ok w =>
        runQueue ast fuel
          (setEntry w.graph (generateNodeID cur.knotName cur.state) { cur with edges := w.edges })
          w.visited w.queue

/-- Initial state of `buildGraph`: every declared variable (global, flag or
local class) set to false. -/
def mkInitialState (ast : Script) : StateMap :=
  (keysOf ast.globalStates ++ keysOf ast.localStates).foldl
    (fun st k => setEntry st k false) []

/-- Embedding of `buildGraph` (graph.go). -/
def buildGraph (ast : Script) (fuel : Nat) : BuildResult :=
  match alookup (str "index") ast.knots with
  | none => .err noEntryMsg
  | some indexKnot =>
    let initialState := mkInitialState ast
    let rootNode := createNode (str "index") indexKnot initialState
    let nodeID := generateNodeID (str "index") initialState
    runQueue ast fuel [(nodeID, rootNode)] [nodeID] [rootNode]

def graphOf : BuildResult → List (Str × StoryNode)
  | .ok g => g
  | _ => []

def isOk : BuildResult → Bool
  | .ok _ => true
  | _ => false

/-- Specification-side successor function: the (unit, state) pair produced
by taking one condition-satisfied, non-dropped choice, scene purge
included; `none` when the choice is skipped, dropped, panics or targets a
missing knot. -/
def stepSucc (ast : Script) (p : Str × StateMap) (choice : Choice) :
    Option (Str × StateMap) :=
  match alookup p.1 ast.knots with
  | none => none
  | some k =>
    match choiceStep ast k p choice with
    | .ok (some (t, _, s2)) => some (t, s2)
    | _ => none

/-- Reachability: the pairs producible by finite sequences of
condition-satisfied choices from the entry unit with every declared
variable false. -/
inductive Reach (ast : Script) : Str × StateMap → Prop where
  | root : Reach ast (str "index", mkInitialState ast)
  | step {p q : Str × StateMap} {k : Knot} {choice : Choice} :
      Reach ast p → alookup p.1 ast.knots = some k → choice ∈ k.choices →
      stepSucc ast p choice = some q → Reach ast q

/-- The edge list a fully processed (unit, state) pair ends up with:
one edge per condition-satisfied, non-dropped choice, in declaration
order; an error or panic of any choice aborts. -/
def collectEdges (ast : Script) (currentKnot : Knot) (p : Str × StateMap) :
    List Choice → StepRes (List StoryEdge)
  | [] => .ok []
  | c :: rest =>
    match choiceStep ast currentKnot p c with
    | .err m => .err m
    | .panicked => .panicked
    | .ok none => collectEdges ast currentKnot p rest
    | .ok (some (t, _, s2)) =>
      match collectEdges ast currentKnot p rest with
      | .ok es =>
        .ok ({ text := c.text, targetNodeID := generateNodeID t s2, stitch := c.stitch } :: es)
      | .err m => .err m
      | .panicked => .panicked

/-! ## Association-list (Go map) lemmas -/

theorem alookup_eq_none {β : Type} {k : Str} {m : List (Str × β)} :
    alookup k m = none ↔ k ∉ keysOf m := by
  induction m with
  | nil => simp [alookup, keysOf]
  | cons p rest ih =>
    obtain ⟨k2, v⟩ := p
    simp only [alookup, keysOf, List.map_cons, List.mem_cons]
    by_cases h : k2 = k
    · subst h
      rw [if_pos rfl]
      exact iff_of_false (fun hh => Option.noConfusion hh) (fun hh => hh (Or.inl rfl))
    · rw [if_neg h, ih]
      simp only [keysOf]
      constructor
      · intro hr hor
        rcases hor with rfl | hmem
        · exact h rfl
        · exact hr hmem
      · intro hr hmem
        exact hr (Or.inr hmem)

theorem alookup_isSome {β : Type} {k : Str} {m : List (Str × β)} :
    (alookup k m).isSome = true ↔ k ∈ keysOf m := by
  rcases h : alookup k m with _ | v
  · simp only [Option.isSome_none, Bool.false_eq_true, false_iff]
    exact alookup_eq_none.mp h
  · simp only [Option.isSome_some, true_iff]
    by_contra hk
    rw [alookup_eq_none.mpr hk] at h
    exact Option.noConfusion h

theorem alookup_mem {β : Type} {k : Str} {v : β} {m : List (Str × β)} :
    alookup k m = some v → (k, v) ∈ m := by
  induction m with
  | nil => intro h; exact Option.noConfusion h
  | cons p rest ih =>
    obtain ⟨k2, w⟩ := p
    by_cases h : k2 = k
    · subst h
      intro hl
      rw [alookup, if_pos rfl] at hl
      cases hl
      exact List.mem_cons_self _ _
    · intro hl
      rw [alookup, if_neg h] at hl
      exact List.mem_cons_of_mem _ (ih hl)

theorem mem_alookup {β : Type} {k : Str} {v : β} {m : List (Str × β)}
    (hn : (keysOf m).Nodup) (hm : (k, v) ∈ m) : alookup k m = some v := by
  induction m with
  | nil => cases hm
  | cons p rest ih =>
    obtain ⟨k2, w⟩ := p
    simp only [keysOf, List.map_cons, List.nodup_cons] at hn
    rcases List.mem_cons.mp hm with heq | htl
    · cases heq
      rw [alookup, if_pos rfl]
    · have hk2 : k2 ≠ k := by
        rintro rfl
        exact hn.1 (List.mem_map.mpr ⟨(k2, v), htl, rfl⟩)
      rw [alookup, if_neg hk2]
      exact ih hn.2 htl

theorem alookup_append_of_none {β : Type} {k : Str} {m1 m2 : List (Str × β)}
    (h : alookup k m1 = none) : alookup k (m1 ++ m2) = alookup k m2 := by
  induction m1 with
  | nil => rfl
  | cons p rest ih =>
    obtain ⟨k2, w⟩ := p
    by_cases h2 : k2 = k
    · rw [alookup, if_pos h2] at h
      exact Option.noConfusion h
    · rw [alookup, if_neg h2] at h
      rw [List.cons_append, alookup, if_neg h2]
      exact ih h

theorem keysOf_append {β : Type} (m1 m2 : List (Str × β)) :
    keysOf (m1 ++ m2) = keysOf m1 ++ keysOf m2 := by
  simp [keysOf]

theorem keysOf_mapReplace {β : Type} (m : List (Str × β)) (k : Str) (v : β) :
    keysOf (m.map (fun p => if p.1 = k then (k, v) else p)) = keysOf m := by
  unfold keysOf
  rw [List.map_map]
  congr 1
  funext p
  by_cases h : p.1 = k <;> simp [h]

theorem keysOf_setEntry {β : Type} (m : List (Str × β)) (k : Str) (v : β) :
    keysOf (setEntry m k v) = if k ∈ keysOf m then keysOf m else keysOf m ++ [k] := by
  unfold setEntry
  by_cases h : k ∈ keysOf m
  · rw [if_pos (alookup_isSome.mpr h), keysOf_mapReplace, if_pos h]
  · rw [if_neg (by simp [alookup_isSome, h]), keysOf_append, if_neg h]
    rfl

theorem mem_keysOf_setEntry {β : Type} {a k : Str} {m : List (Str × β)} {v : β} :
    a ∈ keysOf (setEntry m k v) ↔ a ∈ keysOf m ∨ a = k := by
  rw [keysOf_setEntry]
  by_cases h : k ∈ keysOf m
  · rw [if_pos h]
    constructor
    · exact Or.inl
    · rintro (ha | rfl)
      · exact ha
      · exact h
  · rw [if_neg h]
    simp

theorem nodup_keysOf_setEntry {β : Type} {m : List (Str × β)} {k : Str} {v : β}
    (hn : (keysOf m).Nodup) : (keysOf (setEntry m k v)).Nodup := by
  rw [keysOf_setEntry]
  by_cases h : k ∈ keysOf m
  · rwa [if_pos h]
  · rw [if_neg h]
    exact List.Nodup.append hn (List.nodup_singleton k)
      (fun a ha hb => h ((List.mem_singleton.mp hb) ▸ ha))

theorem alookup_cons {β : Type} (a k2 : Str) (w : β) (rest : List (Str × β)) :
    alookup a ((k2, w) :: rest) = if k2 = a then some w else alookup a rest := rfl

theorem mapReplace_cons {β : Type} (k : Str) (v : β) (k2 : Str) (w : β)
    (rest : List (Str × β)) :
    ((k2, w) :: rest).map (fun p => if p.1 = k then (k, v) else p) =
      (if k2 = k then (k, v) else (k2, w)) ::
        rest.map (fun p => if p.1 = k then (k, v) else p) := rfl

theorem alookup_mapReplace_self {β : Type} {m : List (Str × β)} {k : Str} (v : β)
    (hk : k ∈ keysOf m) :
    alookup k (m.map (fun p => if p.1 = k then (k, v) else p)) = some v := by
  induction m with
  | nil => cases hk
  | cons p rest ih =>
    obtain ⟨k2, w⟩ := p
    rw [mapReplace_cons]
    by_cases h : k2 = k
    · rw [if_pos h, alookup_cons, if_pos rfl]
    · have hk2 : k ∈ keysOf rest := by
        rcases List.mem_cons.mp (by simpa only [keysOf, List.map_cons] using hk) with h1 | h2
        · exact absurd h1.symm h
        · exact h2
      rw [if_neg h, alookup_cons, if_neg h]
      exact ih hk2

theorem alookup_mapReplace_ne {β : Type} {m : List (Str × β)} {k a : Str} (v : β)
    (h : a ≠ k) :
    alookup a (m.map (fun p => if p.1 = k then (k, v) else p)) = alookup a m := by
  induction m with
  | nil => rfl
  | cons p rest ih =>
    obtain ⟨k2, w⟩ := p
    rw [mapReplace_cons]
    by_cases hpk : k2 = k
    · subst hpk
      rw [if_pos rfl, alookup_cons, alookup_cons,
        if_neg (fun hh : k2 = a => h hh.symm), if_neg (fun hh : k2 = a => h hh.symm)]
      exact ih
    · rw [if_neg hpk, alookup_cons, alookup_cons]
      by_cases hpa : k2 = a
      · rw [if_pos hpa, if_pos hpa]
      · rw [if_neg hpa, if_neg hpa]
        exact ih

theorem alookup_setEntry_self {β : Type} (m : List (Str × β)) (k : Str) (v : β) :
    alookup k (setEntry m k v) = some v := by
  unfold setEntry
  by_cases h : (alookup k m).isSome = true
  · rw [if_pos h]
    exact alookup_mapReplace_self v (alookup_isSome.mp h)
  · rw [if_neg h]
    have hnone : alookup k m = none := by
      rcases hh : alookup k m with _ | w
      · rfl
      · rw [hh] at h; simp at h
    rw [alookup_append_of_none hnone, alookup, if_pos rfl]

theorem alookup_append_of_some {β : Type} {k : Str} {v : β} {m1 m2 : List (Str × β)}
    (h : alookup k m1 = some v) : alookup k (m1 ++ m2) = some v := by
  induction m1 with
  | nil => exact Option.noConfusion h
  | cons p rest ih =>
    obtain ⟨k2, w⟩ := p
    rw [List.cons_append, alookup_cons]
    rw [alookup_cons] at h
    by_cases h2 : k2 = k
    · rw [if_pos h2] at h ⊢
      exact h
    · rw [if_neg h2] at h ⊢
      exact ih h

theorem alookup_setEntry_ne {β : Type} {a k : Str} (m : List (Str × β)) (v : β)
    (h : a ≠ k) : alookup a (setEntry m k v) = alookup a m := by
  unfold setEntry
  by_cases hs : (alookup k m).isSome = true
  · rw [if_pos hs]
    exact alookup_mapReplace_ne v h
  · rw [if_neg hs]
    rcases hh : alookup a m with _ | w
    · rw [alookup_append_of_none hh, alookup_cons, if_neg (fun he : k = a => h he.symm)]
      rfl
    · exact alookup_append_of_some hh

theorem mem_setEntry {β : Type} {a k : Str} {b v : β} {m : List (Str × β)} :
    (a, b) ∈ setEntry m k v ↔ (a = k ∧ b = v) ∨ (a ≠ k ∧ (a, b) ∈ m) := by
  unfold setEntry
  by_cases hs : (alookup k m).isSome = true
  · rw [if_pos hs]
    have hk : k ∈ keysOf m := alookup_isSome.mp hs
    constructor
    · intro hm
      rcases List.mem_map.mp hm with ⟨p, hp, hfp⟩
      by_cases h2 : p.1 = k
      · rw [if_pos h2] at hfp
        cases hfp
        exact Or.inl ⟨rfl, rfl⟩
      · rw [if_neg h2] at hfp
        subst hfp
        exact Or.inr ⟨h2, hp⟩
    · rintro (⟨rfl, rfl⟩ | ⟨hne, hm⟩)
      · rcases List.mem_map.mp hk with ⟨p, hp, hfp⟩
        exact List.mem_map.mpr ⟨p, hp, by rw [if_pos hfp]⟩
      · exact List.mem_map.mpr ⟨(a, b), hm, by rw [if_neg hne]⟩
  · rw [if_neg hs]
    have hk : k ∉ keysOf m := fun hm => hs (alookup_isSome.mpr hm)
    constructor
    · intro hm
      rcases List.mem_append.mp hm with hl | hr
      · right
        refine ⟨?_, hl⟩
        rintro rfl
        exact hk (List.mem_map.mpr ⟨(a, b), hl, rfl⟩)
      · left
        have : (a, b) = (k, v) := List.mem_singleton.mp hr
        cases this
        exact ⟨rfl, rfl⟩
    · rintro (⟨rfl, rfl⟩ | ⟨_, hm⟩)
      · exact List.mem_append.mpr (Or.inr (List.mem_singleton.mpr rfl))
      · exact List.mem_append.mpr (Or.inl hm)

theorem getState_setEntry_self (m : StateMap) (k : Str) (v : Bool) :
    getState (setEntry m k v) k = v := by
  simp [getState, alookup_setEntry_self]

theorem getState_setEntry_ne {a k : Str} (m : StateMap) (v : Bool) (h : a ≠ k) :
    getState (setEntry m k v) a = getState m a := by
  simp [getState, alookup_setEntry_ne m v h]

/-! ## String lemmas -/

theorem append_sep_inj (x : Char) :
    ∀ (a1 a2 r1 r2 : List Char), x ∉ a1 → x ∉ a2 →
      a1 ++ x :: r1 = a2 ++ x :: r2 → a1 = a2 ∧ r1 = r2 := by
  intro a1
  induction a1 with
  | nil =>
    intro a2 r1 r2 _ h2 heq
    cases a2 with
    | nil => simpa using heq
    | cons b bs =>
      exfalso
      simp only [List.nil_append, List.cons_append, List.cons.injEq] at heq
      exact h2 (heq.1 ▸ List.mem_cons_self _ _)
  | cons a as ih =>
    intro a2 r1 r2 h1 h2 heq
    cases a2 with
    | nil =>
      exfalso
      simp only [List.cons_append, List.nil_append, List.cons.injEq] at heq
      exact h1 (heq.1 ▸ List.mem_cons_self _ _)
    | cons b bs =>
      simp only [List.cons_append, List.cons.injEq] at heq
      obtain ⟨rfl, heq2⟩ := heq
      have hr := ih bs r1 r2 (fun hm => h1 (List.mem_cons_of_mem _ hm))
        (fun hm => h2 (List.mem_cons_of_mem _ hm)) heq2
      exact ⟨by rw [hr.1], hr.2⟩

theorem joinComma_cons2 (p q : Str) (rest : List Str) :
    joinComma (p :: q :: rest) = p ++ ',' :: joinComma (q :: rest) := rfl

theorem joinComma_inj :
    ∀ (l1 l2 : List Str), (∀ c ∈ l1, c ≠ [] ∧ ',' ∉ c) → (∀ c ∈ l2, c ≠ [] ∧ ',' ∉ c) →
      joinComma l1 = joinComma l2 → l1 = l2 := by
  intro l1
  induction l1 with
  | nil =>
    intro l2 _ h2 heq
    cases l2 with
    | nil => rfl
    | cons b bs =>
      exfalso
      cases bs with
      | nil => exact (h2 b (List.mem_cons_self _ _)).1 (by simpa [joinComma] using heq.symm)
      | cons c cs =>
        rw [joinComma, joinComma_cons2] at heq
        exact List.append_ne_nil_of_right_ne_nil b (List.cons_ne_nil _ _) heq.symm
  | cons a as ih =>
    intro l2 h1 h2 heq
    cases l2 with
    | nil =>
      exfalso
      cases as with
      | nil => exact (h1 a (List.mem_cons_self _ _)).1 (by simpa [joinComma] using heq)
      | cons c cs =>
        rw [joinComma_cons2, joinComma] at heq
        exact List.append_ne_nil_of_right_ne_nil a (List.cons_ne_nil _ _) heq
    | cons b bs =>
      cases as with
      | nil =>
        cases bs with
        | nil =>
          rw [joinComma, joinComma] at heq
          rw [heq]
        | cons c cs =>
          exfalso
          rw [joinComma, joinComma_cons2] at heq
          exact (h1 a (List.mem_cons_self _ _)).2
            (heq ▸ List.mem_append.mpr (Or.inr (List.mem_cons_self _ _)))
      | cons c cs =>
        cases bs with
        | nil =>
          exfalso
          rw [joinComma_cons2, joinComma] at heq
          exact (h2 b (List.mem_cons_self _ _)).2
            (heq ▸ List.mem_append.mpr (Or.inr (List.mem_cons_self _ _)))
        | cons d ds =>
          rw [joinComma_cons2, joinComma_cons2] at heq
          have hsp := append_sep_inj ',' a b _ _ (h1 a (List.mem_cons_self _ _)).2
            (h2 b (List.mem_cons_self _ _)).2 heq
          have htl := ih (d :: ds) (fun x hx => h1 x (List.mem_cons_of_mem _ hx))
            (fun x hx => h2 x (List.mem_cons_of_mem _ hx)) hsp.2
          rw [hsp.1, htl]

theorem mem_chTrim {a : Char} {s : Str} (h : a ∈ chTrim s) : a ∈ s := by
  unfold chTrim at h
  rw [List.mem_reverse] at h
  have h2 := (List.dropWhile_sublist _).mem h
  rw [List.mem_reverse] at h2
  exact (List.dropWhile_sublist _).mem h2

theorem chSplit1_cons (c a : Char) (rest : Str) :
    chSplit1 c (a :: rest) =
      if c = a then [] :: chSplit1 c rest
      else match chSplit1 c rest with
        | [] => [[a]]
        | p :: ps => (a :: p) :: ps := rfl

theorem chSplit1_ne_nil (c : Char) (s : Str) : chSplit1 c s ≠ [] := by
  cases s with
  | nil => simp [chSplit1]
  | cons a rest =>
    rw [chSplit1_cons]
    by_cases h : c = a
    · rw [if_pos h]
      simp
    · rw [if_neg h]
      rcases chSplit1 c rest with _ | ⟨p, ps⟩ <;> simp

theorem chSplit1_sep_free (c : Char) :
    ∀ (s : Str), ∀ part ∈ chSplit1 c s, c ∉ part := by
  intro s
  induction s with
  | nil =>
    intro part hp
    simp only [chSplit1, List.mem_singleton] at hp
    simp [hp]
  | cons a rest ih =>
    intro part hp
    rw [chSplit1_cons] at hp
    by_cases h : c = a
    · rw [if_pos h] at hp
      rcases List.mem_cons.mp hp with rfl | hp2
      · simp
      · exact ih part hp2
    · rw [if_neg h] at hp
      rcases he : chSplit1 c rest with _ | ⟨p, ps⟩
      · exact absurd he (chSplit1_ne_nil c rest)
      · rw [he] at hp
        rcases List.mem_cons.mp hp with rfl | hp2
        · intro hmem
          rcases List.mem_cons.mp hmem with rfl | hmem2
          · exact h rfl
          · exact ih p (he ▸ List.mem_cons_self _ _) hmem2
        · exact ih part (he ▸ List.mem_cons_of_mem _ hp2)

theorem chSplit1_length_of_mem (c : Char) :
    ∀ (s : Str), c ∈ s → 2 ≤ (chSplit1 c s).length := by
  intro s
  induction s with
  | nil => intro h; cases h
  | cons a rest ih =>
    intro hmem
    rw [chSplit1_cons]
    by_cases h : c = a
    · rw [if_pos h]
      rcases he : chSplit1 c rest with _ | ⟨p, ps⟩
      · exact absurd he (chSplit1_ne_nil c rest)
      · simp
    · rw [if_neg h]
      have hrest : c ∈ rest := by
        rcases List.mem_cons.mp hmem with rfl | h2
        · exact absurd rfl h
        · exact h2
      have h2 := ih hrest
      rcases he : chSplit1 c rest with _ | ⟨p, ps⟩
      · exact absurd he (chSplit1_ne_nil c rest)
      · rw [he] at h2
        simpa using h2

/-! ## Order facts for the key sort -/

theorem strLeB_total : ∀ (a b : Str), strLeB a b = true ∨ strLeB b a = true := by
  intro a
  induction a with
  | nil => intro b; left; rfl
  | cons x xs ih =>
    intro b
    cases b with
    | nil => right; rfl
    | cons y ys =>
      rcases lt_trichotomy x y with h | h | h
      · left
        rw [strLeB, if_pos h]
      · subst h
        rcases ih ys with h2 | h2
        · left
          rw [strLeB, if_neg (lt_irrefl x), if_neg (lt_irrefl x)]
          exact h2
        · right
          rw [strLeB, if_neg (lt_irrefl x), if_neg (lt_irrefl x)]
          exact h2
      · right
        rw [strLeB, if_pos h]

theorem strLeB_antisymm : ∀ (a b : Str), strLeB a b = true → strLeB b a = true → a = b := by
  intro a
  induction a with
  | nil =>
    intro b _ hba
    cases b with
    | nil => rfl
    | cons y ys => exact absurd hba (by rw [strLeB]; simp)
  | cons x xs ih =>
    intro b hab hba
    cases b with
    | nil => exact absurd hab (by rw [strLeB]; simp)
    | cons y ys =>
      rcases lt_trichotomy x y with h | h | h
      · rw [strLeB, if_neg (lt_asymm h), if_pos h] at hba
        exact absurd hba (by simp)
      · subst h
        rw [strLeB, if_neg (lt_irrefl x), if_neg (lt_irrefl x)] at hab hba
        rw [ih ys hab hba]
      · rw [strLeB, if_neg (lt_asymm h), if_pos h] at hab
        exact absurd hab (by simp)

theorem strLeB_trans : ∀ (a b c : Str), strLeB a b = true → strLeB b c = true →
    strLeB a c = true := by
  intro a
  induction a with
  | nil => intro b c _ _; rfl
  | cons x xs ih =>
    intro b c hab hbc
    cases b with
    | nil => exact absurd hab (by rw [strLeB]; simp)
    | cons y ys =>
      cases c with
      | nil => exact absurd hbc (by rw [strLeB]; simp)
      | cons z zs =>
        rw [strLeB] at hab hbc ⊢
        rcases lt_trichotomy x y with h1 | h1 | h1
        · rcases lt_trichotomy y z with h2 | h2 | h2
          · rw [if_pos (lt_trans h1 h2)]
          · subst h2
            rw [if_pos h1]
          · rw [if_neg (lt_asymm h2), if_pos h2] at hbc
            exact absurd hbc (by simp)
        · subst h1
          rcases lt_trichotomy x z with h2 | h2 | h2
          · rw [if_pos h2]
          · subst h2
            rw [if_neg (lt_irrefl x), if_neg (lt_irrefl x)] at hab hbc ⊢
            exact ih _ _ hab hbc
          · rw [if_neg (lt_asymm h2), if_pos h2] at hbc
            exact absurd hbc (by simp)
        · rw [if_neg (lt_asymm h1), if_pos h1] at hab
          exact absurd hab (by simp)

instance : IsTotal Str StrLe := ⟨strLeB_total⟩

instance : IsTrans Str StrLe := ⟨strLeB_trans⟩

instance : IsAntisymm Str StrLe := ⟨strLeB_antisymm⟩

theorem sortKeys_eq_of_perm {l1 l2 : List Str} (h : l1.Perm l2) :
    List.insertionSort StrLe l1 = List.insertionSort StrLe l2 :=
  List.eq_of_perm_of_sorted
    (((List.perm_insertionSort StrLe l1).trans h).trans
      (List.perm_insertionSort StrLe l2).symm)
    (List.sorted_insertionSort StrLe l1) (List.sorted_insertionSort StrLe l2)

/-! ## Canonical identity lemmas -/

theorem alookup_eq_getState {k : Str} {m : StateMap} (h : k ∈ keysOf m) :
    alookup k m = some (getState m k) := by
  rcases he : alookup k m with _ | v
  · exact absurd (alookup_eq_none.mp he) (by simpa using h)
  · rw [getState, he]
    rfl

theorem boolStr_facts : ∀ b : Bool, boolStr b ≠ [] ∧ ',' ∉ boolStr b := by decide

theorem boolStr_inj : ∀ b1 b2 : Bool, boolStr b1 = boolStr b2 → b1 = b2 := by decide

theorem generateNodeID_def (u : Str) (m : StateMap) :
    generateNodeID u m = u ++ '|' :: joinComma ((List.insertionSort StrLe (keysOf m)).map
      (fun k => k ++ '=' :: boolStr (getState m k))) := rfl

theorem generateNodeID_congr {u : Str} {m1 m2 : StateMap}
    (h1 : (keysOf m1).Nodup) (h2 : (keysOf m2).Nodup)
    (hl : ∀ k, alookup k m1 = alookup k m2) :
    generateNodeID u m1 = generateNodeID u m2 := by
  have hmem : ∀ k, k ∈ keysOf m1 ↔ k ∈ keysOf m2 := fun k => by
    rw [← alookup_isSome, ← alookup_isSome, hl k]
  have hperm : (keysOf m1).Perm (keysOf m2) := (List.perm_ext_iff_of_nodup h1 h2).mpr hmem
  rw [generateNodeID_def, generateNodeID_def, sortKeys_eq_of_perm hperm]
  have hmaps : (List.insertionSort StrLe (keysOf m2)).map
      (fun k => k ++ '=' :: boolStr (getState m1 k)) =
      (List.insertionSort StrLe (keysOf m2)).map
      (fun k => k ++ '=' :: boolStr (getState m2 k)) :=
    List.map_congr_left (fun k _ => by rw [getState, getState, hl k])
  rw [hmaps]

theorem map_chunk_inj {m1 m2 : StateMap} :
    ∀ (l1 l2 : List Str), (∀ k ∈ l1, '=' ∉ k) → (∀ k ∈ l2, '=' ∉ k) →
      l1.map (fun k => k ++ '=' :: boolStr (getState m1 k)) =
        l2.map (fun k => k ++ '=' :: boolStr (getState m2 k)) →
      l1 = l2 ∧ ∀ k ∈ l1, getState m1 k = getState m2 k := by
  intro l1
  induction l1 with
  | nil =>
    intro l2 _ _ heq
    cases l2 with
    | nil => exact ⟨rfl, by simp⟩
    | cons b bs => simp at heq
  | cons a as ih =>
    intro l2 h1 h2 heq
    cases l2 with
    | nil => simp at heq
    | cons b bs =>
      simp only [List.map_cons, List.cons.injEq] at heq
      have hh := append_sep_inj '=' a b _ _ (h1 a (List.mem_cons_self _ _))
        (h2 b (List.mem_cons_self _ _)) heq.1
      have hg : getState m1 a = getState m2 a :=
        boolStr_inj _ _ (by rw [hh.2]; rw [hh.1])
      have ht := ih bs (fun k hk => h1 k (List.mem_cons_of_mem _ hk))
        (fun k hk => h2 k (List.mem_cons_of_mem _ hk)) heq.2
      refine ⟨by rw [hh.1, ht.1], ?_⟩
      intro k hk
      rcases List.mem_cons.mp hk with rfl | hk2
      · exact hg
      · exact ht.2 k hk2

theorem generateNodeID_inj {u1 u2 : Str} {m1 m2 : StateMap}
    (hu1 : '|' ∉ u1) (hu2 : '|' ∉ u2)
    (hk1 : ∀ k ∈ keysOf m1, ',' ∉ k ∧ '=' ∉ k)
    (hk2 : ∀ k ∈ keysOf m2, ',' ∉ k ∧ '=' ∉ k)
    (hn1 : (keysOf m1).Nodup) (hn2 : (keysOf m2).Nodup)
    (heq : generateNodeID u1 m1 = generateNodeID u2 m2) :
    u1 = u2 ∧ ∀ k, alookup k m1 = alookup k m2 := by
  rw [generateNodeID_def, generateNodeID_def] at heq
  have hsp := append_sep_inj '|' u1 u2 _ _ hu1 hu2 heq
  refine ⟨hsp.1, ?_⟩
  have hchunkfacts : ∀ (m : StateMap), (∀ k ∈ keysOf m, ',' ∉ k ∧ '=' ∉ k) →
      ∀ c ∈ (List.insertionSort StrLe (keysOf m)).map
        (fun k => k ++ '=' :: boolStr (getState m k)), c ≠ [] ∧ ',' ∉ c := by
    intro m hk c hc
    rcases List.mem_map.mp hc with ⟨k, hkmem, rfl⟩
    have hkm : k ∈ keysOf m := (List.perm_insertionSort StrLe (keysOf m)).mem_iff.mp hkmem
    constructor
    · exact List.append_ne_nil_of_right_ne_nil _ (List.cons_ne_nil _ _)
    · intro hcm
      rcases List.mem_append.mp hcm with hin | hin
      · exact (hk k hkm).1 hin
      · rcases List.mem_cons.mp hin with habs | hin2
        · exact absurd habs (by decide)
        · exact (boolStr_facts _).2 hin2
  have hchunks := joinComma_inj _ _ (hchunkfacts m1 hk1) (hchunkfacts m2 hk2) hsp.2
  have hpt := map_chunk_inj _ _
    (fun k hk => (hk1 k ((List.perm_insertionSort StrLe (keysOf m1)).mem_iff.mp hk)).2)
    (fun k hk => (hk2 k ((List.perm_insertionSort StrLe (keysOf m2)).mem_iff.mp hk)).2)
    hchunks
  intro k
  by_cases hkm : k ∈ keysOf m1
  · have hks : k ∈ List.insertionSort StrLe (keysOf m1) :=
      (List.perm_insertionSort StrLe (keysOf m1)).mem_iff.mpr hkm
    have hg := hpt.2 k hks
    have hkm2 : k ∈ keysOf m2 :=
      (List.perm_insertionSort StrLe (keysOf m2)).mem_iff.mp (hpt.1 ▸ hks)
    rw [alookup_eq_getState hkm, alookup_eq_getState hkm2, hg]
  · have hkm2 : k ∉ keysOf m2 := fun hc => hkm
      ((List.perm_insertionSort StrLe (keysOf m1)).mem_iff.mp
        (hpt.1 ▸ (List.perm_insertionSort StrLe (keysOf m2)).mem_iff.mpr hc))
    rw [alookup_eq_none.mpr hkm, alookup_eq_none.mpr hkm2]

/-! ## State transition lemmas -/

/-- The variable name a mutation string parses to (Go
`strings.TrimSpace(parts[0])`). -/
def mutName (change : Str) : Str := chTrim ((chSplit1 '=' change).headD [])

theorem mutName_eq_free (change : Str) : '=' ∉ mutName change := by
  intro h
  have h2 := mem_chTrim h
  rcases he : chSplit1 '=' change with _ | ⟨p, ps⟩
  · exact absurd he (chSplit1_ne_nil _ _)
  · rw [he] at h2
    simp only [List.headD_cons] at h2
    exact chSplit1_sep_free '=' change p (he ▸ List.mem_cons_self _ _) h2

theorem applyChange_def (ast : Script) (st : StateMap) (change : Str) :
    applyChange ast st change =
      match ((chSplit1 '=' change).drop 1).head? with
      | none => none
      | some second =>
        match alookup (mutName change) ast.globalStates with
        | some isFlagVal =>
          if isFlagVal && !(decide (chTrim second = str "true")) then some st
          else some (setEntry st (mutName change) (decide (chTrim second = str "true")))
        | none => some (setEntry st (mutName change) (decide (chTrim second = str "true"))) :=
  rfl

theorem applyChange_total {ast : Script} {st : StateMap} {change : Str}
    (h : '=' ∈ change) : ∃ s2, applyChange ast st change = some s2 := by
  have hlen := chSplit1_length_of_mem '=' change h
  rw [applyChange_def]
  split
  · rename_i hnone
    exfalso
    rw [List.head?_eq_none_iff, List.drop_eq_nil_iff] at hnone
    omega
  · split
    · split
      · exact ⟨st, rfl⟩
      · exact ⟨_, rfl⟩
    · exact ⟨_, rfl⟩

theorem applyChange_shape {ast : Script} {st s2 : StateMap} {change : Str}
    (h : applyChange ast st change = some s2) :
    s2 = st ∨ ∃ b : Bool, s2 = setEntry st (mutName change) b := by
  rw [applyChange_def] at h
  split at h
  · exact Option.noConfusion h
  · split at h
    · split at h
      · exact Or.inl (Option.some.inj h).symm
      · exact Or.inr ⟨_, (Option.some.inj h).symm⟩
    · exact Or.inr ⟨_, (Option.some.inj h).symm⟩

theorem applyChange_flag {ast : Script} {st s2 : StateMap} {change : Str} {v : Str}
    (hflag : alookup v ast.globalStates = some true)
    (h : applyChange ast st change = some s2)
    (hv : getState st v = true) : getState s2 v = true := by
  rw [applyChange_def] at h
  split at h
  · exact Option.noConfusion h
  · rename_i second hsec
    split at h
    · rename_i isFlagVal hfl
      split at h
      · cases Option.some.inj h
        exact hv
      · rename_i hcond
        cases Option.some.inj h
        by_cases hname : mutName change = v
        · rw [hname] at hfl
          have hifv : isFlagVal = true := Option.some.inj (hfl.symm.trans hflag)
          subst hifv
          have hval : decide (chTrim second = str "true") = true := by
            rcases hb : decide (chTrim second = str "true") with _ | _
            · exact absurd (by rw [hb]; rfl) hcond
            · rfl
          rw [hname, hval, getState_setEntry_self]
        · rw [getState_setEntry_ne _ _ (fun hh => hname hh.symm)]
          exact hv
    · rename_i hfl
      cases Option.some.inj h
      have hname : mutName change ≠ v := by
        intro hh
        rw [hh, hflag] at hfl
        exact Option.noConfusion hfl
      rw [getState_setEntry_ne _ _ (fun hh => hname hh.symm)]
      exact hv

/-- The mutation fold of `applyStateChanges`, abstracted over the list. -/
def applyList (ast : Script) (st : StateMap) (changes : List Str) : Option StateMap :=
  changes.foldlM (fun st c => applyChange ast st c) st

theorem applyStateChanges_eq_applyList (st : StateMap) (choice : Choice) (ast : Script) :
    applyStateChanges st choice ast = applyList ast st choice.stateChanges := rfl

theorem applyList_nil (ast : Script) (st : StateMap) : applyList ast st [] = some st := rfl

theorem applyList_cons (ast : Script) (st : StateMap) (c : Str) (cs : List Str) :
    applyList ast st (c :: cs) =
      (applyChange ast st c).bind (fun st2 => applyList ast st2 cs) := by
  rcases h : applyChange ast st c with _ | st2 <;>
    simp [applyList, List.foldlM, h, Option.bind]

theorem applyList_total {ast : Script} :
    ∀ (changes : List Str) (st : StateMap), (∀ c ∈ changes, '=' ∈ c) →
      ∃ s2, applyList ast st changes = some s2 := by
  intro changes
  induction changes with
  | nil => exact fun st _ => ⟨st, rfl⟩
  | cons c cs ih =>
    intro st hall
    obtain ⟨st2, h2⟩ := @applyChange_total ast st c (hall c (List.mem_cons_self _ _))
    obtain ⟨s3, h3⟩ := ih st2 (fun x hx => hall x (List.mem_cons_of_mem _ hx))
    exact ⟨s3, by rw [applyList_cons, h2, Option.some_bind, h3]⟩

theorem applyList_flag {ast : Script} {v : Str}
    (hflag : alookup v ast.globalStates = some true) :
    ∀ (changes : List Str) (st s2 : StateMap), applyList ast st changes = some s2 →
      getState st v = true → getState s2 v = true := by
  intro changes
  induction changes with
  | nil =>
    intro st s2 h hv
    cases Option.some.inj h
    exact hv
  | cons c cs ih =>
    intro st s2 h hv
    rw [applyList_cons] at h
    rcases h2 : applyChange ast st c with _ | st2
    · rw [h2] at h
      exact Option.noConfusion h
    · rw [h2, Option.some_bind] at h
      exact ih st2 s2 h (applyChange_flag hflag h2 hv)

theorem applyList_keys {ast : Script} :
    ∀ (changes : List Str) (st s2 : StateMap), applyList ast st changes = some s2 →
      (∀ k ∈ keysOf s2, k ∈ keysOf st ∨ ∃ c ∈ changes, k = mutName c) ∧
        ((keysOf st).Nodup → (keysOf s2).Nodup) := by
  intro changes
  induction changes with
  | nil =>
    intro st s2 h
    cases Option.some.inj h
    exact ⟨fun k hk => Or.inl hk, id⟩
  | cons c cs ih =>
    intro st s2 h
    rw [applyList_cons] at h
    rcases h2 : applyChange ast st c with _ | st2
    · rw [h2] at h
      exact Option.noConfusion h
    · rw [h2, Option.some_bind] at h
      have hrec := ih st2 s2 h
      rcases applyChange_shape h2 with rfl | ⟨b, rfl⟩
      · exact ⟨fun k hk => (hrec.1 k hk).imp id
          (fun ⟨x, hx, he⟩ => ⟨x, List.mem_cons_of_mem _ hx, he⟩), hrec.2⟩
      · constructor
        · intro k hk
          rcases hrec.1 k hk with hin | ⟨x, hx, he⟩
          · rcases mem_keysOf_setEntry.mp hin with hin2 | rfl
            · exact Or.inl hin2
            · exact Or.inr ⟨c, List.mem_cons_self _ _, rfl⟩
          · exact Or.inr ⟨x, List.mem_cons_of_mem _ hx, he⟩
        · exact fun hn => hrec.2 (nodup_keysOf_setEntry hn)

/-! ## Purge and initial-state lemmas -/

theorem purgeFold_ne :
    ∀ (l : List (Str × Bool)) (st : StateMap) (k : Str), k ∉ keysOf l →
      getState (l.foldl (fun acc p => setEntry acc p.1 false) st) k = getState st k := by
  intro l
  induction l with
  | nil => intro st k _; rfl
  | cons p rest ih =>
    intro st k hk
    simp only [keysOf, List.map_cons, List.mem_cons, not_or] at hk
    rw [List.foldl_cons, ih _ _ (by simpa [keysOf] using hk.2),
      getState_setEntry_ne _ _ hk.1]

theorem purgeFold_mem :
    ∀ (l : List (Str × Bool)) (st : StateMap) (k : Str), k ∈ keysOf l →
      getState (l.foldl (fun acc p => setEntry acc p.1 false) st) k = false := by
  intro l
  induction l with
  | nil => intro st k hk; cases hk
  | cons p rest ih =>
    intro st k hk
    rw [List.foldl_cons]
    by_cases h2 : k ∈ keysOf rest
    · exact ih _ _ h2
    · have hkor : k = p.1 ∨ k ∈ keysOf rest := by
        simpa only [keysOf, List.map_cons, List.mem_cons] using hk
      have hkp : k = p.1 := by
        rcases hkor with h3 | h3
        · exact h3
        · exact absurd h3 h2
      rw [purgeFold_ne _ _ _ (by simpa [keysOf] using h2), hkp, getState_setEntry_self]

theorem purgeFold_keys :
    ∀ (l : List (Str × Bool)) (st : StateMap),
      (∀ k ∈ keysOf (l.foldl (fun acc p => setEntry acc p.1 false) st),
        k ∈ keysOf st ∨ k ∈ keysOf l) ∧
      ((keysOf st).Nodup →
        (keysOf (l.foldl (fun acc p => setEntry acc p.1 false) st)).Nodup) := by
  intro l
  induction l with
  | nil => exact fun st => ⟨fun k hk => Or.inl hk, id⟩
  | cons p rest ih =>
    intro st
    rw [List.foldl_cons]
    constructor
    · intro k hk
      rcases (ih (setEntry st p.1 false)).1 k hk with hin | hin
      · rcases mem_keysOf_setEntry.mp hin with hin2 | rfl
        · exact Or.inl hin2
        · exact Or.inr (by simp [keysOf])
      · exact Or.inr (by simp only [keysOf, List.map_cons, List.mem_cons]; exact Or.inr hin)
    · exact fun hn => (ih (setEntry st p.1 false)).2 (nodup_keysOf_setEntry hn)

theorem getState_purgeLocals_mem {ast : Script} {st : StateMap} {k : Str}
    (h : k ∈ keysOf ast.localStates) : getState (purgeLocals ast st) k = false :=
  purgeFold_mem _ _ _ h

theorem getState_purgeLocals_ne {ast : Script} {st : StateMap} {k : Str}
    (h : k ∉ keysOf ast.localStates) : getState (purgeLocals ast st) k = getState st k :=
  purgeFold_ne _ _ _ h

theorem initFold_getState :
    ∀ (names : List Str) (st : StateMap), (∀ k, getState st k = false) →
      ∀ k, getState (names.foldl (fun st k => setEntry st k false) st) k = false := by
  intro names
  induction names with
  | nil => exact fun st h => h
  | cons n rest ih =>
    intro st h k
    rw [List.foldl_cons]
    refine ih _ (fun k2 => ?_) k
    by_cases h2 : k2 = n
    · rw [h2, getState_setEntry_self]
    · rw [getState_setEntry_ne _ _ h2]
      exact h k2

theorem initFold_keys :
    ∀ (names : List Str) (st : StateMap),
      (∀ k ∈ keysOf (names.foldl (fun st k => setEntry st k false) st),
        k ∈ keysOf st ∨ k ∈ names) ∧
      ((keysOf st).Nodup →
        (keysOf (names.foldl (fun st k => setEntry st k false) st)).Nodup) := by
  intro names
  induction names with
  | nil => exact fun st => ⟨fun k hk => Or.inl hk, id⟩
  | cons n rest ih =>
    intro st
    rw [List.foldl_cons]
    constructor
    · intro k hk
      rcases (ih (setEntry st n false)).1 k hk with hin | hin
      · rcases mem_keysOf_setEntry.mp hin with hin2 | rfl
        · exact Or.inl hin2
        · exact Or.inr (List.mem_cons_self _ _)
      · exact Or.inr (List.mem_cons_of_mem _ hin)
    · exact fun hn => (ih (setEntry st n false)).2 (nodup_keysOf_setEntry hn)

theorem getState_mkInitialState (ast : Script) (k : Str) :
    getState (mkInitialState ast) k = false :=
  initFold_getState _ [] (fun _ => rfl) k

theorem mkInitialState_keys (ast : Script) :
    (∀ k ∈ keysOf (mkInitialState ast),
      k ∈ keysOf ast.globalStates ∨ k ∈ keysOf ast.localStates) ∧
    (keysOf (mkInitialState ast)).Nodup := by
  have h := initFold_keys (keysOf ast.globalStates ++ keysOf ast.localStates) []
  refine ⟨fun k hk => ?_, h.2 List.nodup_nil⟩
  rcases h.1 k hk with hin | hin
  · cases hin
  · exact List.mem_append.mp hin

/-! ## Builder invariant: definitions and step equations -/

def idOfNode (n : StoryNode) : Str := generateNodeID n.knotName n.state

def mkEdge (choice : Choice) (t : Str) (s2 : StateMap) : StoryEdge :=
  { text := choice.text, targetNodeID := generateNodeID t s2, stitch := choice.stitch }

/-- A stored node is consistent with its knot: every node is built by
`createNode` from an existing knot. -/
def NodeWF (ast : Script) (n : StoryNode) : Prop :=
  ∃ k, alookup n.knotName ast.knots = some k ∧ n.scene = k.scene ∧ n.isEnd = k.isEnd ∧
    n.content = selectContent n.state k.body

theorem resolveTargetName_def (choice : Choice) (currentKnotName : Str) :
    resolveTargetName choice currentKnotName =
      if (if choice.stitch ≠ [] then trimDot choice.stitch else choice.targetKnot) ≠ [] then
        some (if choice.stitch ≠ [] then trimDot choice.stitch else choice.targetKnot)
      else if choice.stateChanges.length > 0 then some currentKnotName
      else none := rfl

theorem choiceStep_def (ast : Script) (k : Knot) (p : Str × StateMap) (choice : Choice) :
    choiceStep ast k p choice =
      if choice.condition ≠ [] ∧ evaluateCondition choice.condition p.2 = false then .ok none
      else
        match applyStateChanges p.2 choice ast with
        | none => .panicked
        | some nextState =>
          match resolveTargetName choice p.1 with
          | none => .ok none
          | some targetKnotName =>
            match alookup targetKnotName ast.knots with
            | none => .err (missingKnotMsg targetKnotName)
            | some targetKnot =>
              .ok (some (targetKnotName, targetKnot,
                if k.scene ≠ targetKnot.scene then purgeLocals ast nextState
                else nextState)) := rfl

theorem choiceStep_some {ast : Script} {k : Knot} {p : Str × StateMap} {choice : Choice}
    {t : Str} {tk : Knot} {s2 : StateMap}
    (h : choiceStep ast k p choice = .ok (some (t, tk, s2))) :
    ¬(choice.condition ≠ [] ∧ evaluateCondition choice.condition p.2 = false) ∧
    ∃ s0, applyStateChanges p.2 choice ast = some s0 ∧
      resolveTargetName choice p.1 = some t ∧
      alookup t ast.knots = some tk ∧
      s2 = (if k.scene ≠ tk.scene then purgeLocals ast s0 else s0) := by
  rw [choiceStep_def] at h
  split at h
  · exact Option.noConfusion (StepRes.ok.inj h)
  · rename_i hcond
    split at h
    · exact StepRes.noConfusion h
    · rename_i s0 happ
      split at h
      · exact Option.noConfusion (StepRes.ok.inj h)
      · rename_i t2 hres
        split at h
        · exact StepRes.noConfusion h
        · rename_i tk2 hlook
          cases Option.some.inj (StepRes.ok.inj h)
          exact ⟨hcond, s0, happ, hres, hlook, rfl⟩

theorem choiceStep_err {ast : Script} {k : Knot} {p : Str × StateMap} {choice : Choice}
    {m : Str} (h : choiceStep ast k p choice = .err m) :
    ¬(choice.condition ≠ [] ∧ evaluateCondition choice.condition p.2 = false) ∧
    ∃ s0, applyStateChanges p.2 choice ast = some s0 ∧
      ∃ t, resolveTargetName choice p.1 = some t ∧ alookup t ast.knots = none ∧
        m = missingKnotMsg t := by
  rw [choiceStep_def] at h
  split at h
  · exact StepRes.noConfusion h
  · rename_i hcond
    split at h
    · exact StepRes.noConfusion h
    · rename_i s0 happ
      split at h
      · exact StepRes.noConfusion h
      · rename_i t2 hres
        split at h
        · rename_i hlook
          cases StepRes.err.inj h
          exact ⟨hcond, s0, happ, t2, hres, hlook, rfl⟩
        · exact StepRes.noConfusion h

theorem stepSucc_of_choiceStep {ast : Script} {k : Knot} {cur : StoryNode} {choice : Choice}
    {t : Str} {tk : Knot} {s2 : StateMap}
    (hk : alookup cur.knotName ast.knots = some k)
    (h : choiceStep ast k (pairOf cur) choice = .ok (some (t, tk, s2))) :
    stepSucc ast (pairOf cur) choice = some (t, s2) := by
  have hk2 : alookup (pairOf cur).1 ast.knots = some k := hk
  simp only [stepSucc, hk2, h]

theorem processChoice_err {ast : Script} {k : Knot} {cur : StoryNode} {w : Work}
    {choice : Choice} {m : Str}
    (hc : choiceStep ast k (pairOf cur) choice = .err m) :
    processChoice ast k cur w choice = .err m := by
  unfold processChoice
  rw [hc]

theorem processChoice_panicked {ast : Script} {k : Knot} {cur : StoryNode} {w : Work}
    {choice : Choice} (hc : choiceStep ast k (pairOf cur) choice = .panicked) :
    processChoice ast k cur w choice = .panicked := by
  unfold processChoice
  rw [hc]

theorem processChoice_none {ast : Script} {k : Knot} {cur : StoryNode} {w : Work}
    {choice : Choice} (hc : choiceStep ast k (pairOf cur) choice = .ok none) :
    processChoice ast k cur w choice = .ok w := by
  unfold processChoice
  rw [hc]

theorem processChoice_some_visited {ast : Script} {k : Knot} {cur : StoryNode} {w : Work}
    {choice : Choice} {t : Str} {tk : Knot} {s2 : StateMap}
    (hc : choiceStep ast k (pairOf cur) choice = .ok (some (t, tk, s2)))
    (hv : generateNodeID t s2 ∈ w.visited) :
    processChoice ast k cur w choice =
      .ok { w with edges := w.edges ++ [mkEdge choice t s2] } := by
  simp only [processChoice, hc]
  split
  · rfl
  · rename_i hnv
    exact absurd hv hnv

theorem processChoice_some_fresh {ast : Script} {k : Knot} {cur : StoryNode} {w : Work}
    {choice : Choice} {t : Str} {tk : Knot} {s2 : StateMap}
    (hc : choiceStep ast k (pairOf cur) choice = .ok (some (t, tk, s2)))
    (hv : generateNodeID t s2 ∉ w.visited) :
    processChoice ast k cur w choice =
      .ok { graph := setEntry w.graph (generateNodeID t s2) (createNode t tk s2),
            visited := generateNodeID t s2 :: w.visited,
            queue := w.queue ++ [createNode t tk s2],
            edges := w.edges ++ [mkEdge choice t s2] } := by
  simp only [processChoice, hc]
  split
  · rename_i hvv
    exact absurd hvv hv
  · rfl

theorem collectEdges_nil (ast : Script) (k : Knot) (p : Str × StateMap) :
    collectEdges ast k p [] = .ok [] := rfl

theorem collectEdges_append {ast : Script} {k : Knot} {p : Str × StateMap} :
    ∀ (l1 l2 : List Choice) (es1 : List StoryEdge),
      collectEdges ast k p l1 = .ok es1 →
      collectEdges ast k p (l1 ++ l2) =
        match collectEdges ast k p l2 with
        | .ok es2 => .ok (es1 ++ es2)
        | .err m => .err m
        | .panicked => .panicked := by
  intro l1
  induction l1 with
  | nil =>
    intro l2 es1 h
    cases StepRes.ok.inj h
    rcases h2 : collectEdges ast k p l2 with es2 | m | _ <;> simp [h2]
  | cons c cs ih =>
    intro l2 es1 h
    rw [List.cons_append]
    rcases hc : choiceStep ast k p c with v | m | _
    · rcases v with _ | ⟨t, tk, s2⟩
      · simp only [collectEdges, hc] at h ⊢
        exact ih l2 es1 h
      · simp only [collectEdges, hc] at h ⊢
        rcases h3 : collectEdges ast k p cs with es3 | m3 | _ <;> rw [h3] at h
        · cases StepRes.ok.inj h
          rw [ih l2 es3 h3]
          rcases h4 : collectEdges ast k p l2 with es4 | m4 | _ <;> simp
        · exact StepRes.noConfusion h
        · exact StepRes.noConfusion h
    · simp only [collectEdges, hc] at h
      exact StepRes.noConfusion h
    · simp only [collectEdges, hc] at h
      exact StepRes.noConfusion h

theorem entry_key_mem {β : Type} {a : Str} {b : β} {g : List (Str × β)}
    (h : (a, b) ∈ g) : a ∈ keysOf g :=
  List.mem_map.mpr ⟨(a, b), h, rfl⟩

theorem collectEdges_singleton_none {ast : Script} {k : Knot} {p : Str × StateMap}
    {c : Choice} (hc : choiceStep ast k p c = .ok none) :
    collectEdges ast k p [c] = .ok [] := by
  simp only [collectEdges, hc]

theorem collectEdges_singleton_some {ast : Script} {k : Knot} {p : Str × StateMap}
    {c : Choice} {t : Str} {tk : Knot} {s2 : StateMap}
    (hc : choiceStep ast k p c = .ok (some (t, tk, s2))) :
    collectEdges ast k p [c] = .ok [mkEdge c t s2] := by
  simp only [collectEdges, hc]
  rfl

theorem collectEdges_snoc_none {ast : Script} {k : Knot} {p : Str × StateMap}
    {done : List Choice} {c : Choice} {es : List StoryEdge}
    (hdone : collectEdges ast k p done = .ok es)
    (hc : choiceStep ast k p c = .ok none) :
    collectEdges ast k p (done ++ [c]) = .ok es := by
  rw [collectEdges_append done [c] es hdone, collectEdges_singleton_none hc]
  show StepRes.ok (es ++ ([] : List StoryEdge)) = StepRes.ok es
  rw [List.append_nil]

theorem collectEdges_snoc_some {ast : Script} {k : Knot} {p : Str × StateMap}
    {done : List Choice} {c : Choice} {es : List StoryEdge} {t : Str} {tk : Knot}
    {s2 : StateMap}
    (hdone : collectEdges ast k p done = .ok es)
    (hc : choiceStep ast k p c = .ok (some (t, tk, s2))) :
    collectEdges ast k p (done ++ [c]) = .ok (es ++ [mkEdge c t s2]) := by
  rw [collectEdges_append done [c] es hdone, collectEdges_singleton_some hc]

/-- The loop invariant of `buildGraph` between dequeue steps. -/
structure BuildInv (ast : Script) (g : List (Str × StoryNode)) (vis : List Str)
    (q : List StoryNode) : Prop where
  nodup : (keysOf g).Nodup
  vis_iff : ∀ id, id ∈ vis ↔ id ∈ keysOf g
  stored_id : ∀ e ∈ g, e.1 = idOfNode e.2
  stored_reach : ∀ e ∈ g, Reach ast (pairOf e.2)
  stored_wf : ∀ e ∈ g, NodeWF ast e.2
  queue_mem : ∀ n ∈ q, (idOfNode n, n) ∈ g ∧ n.edges = []
  queue_nodup : (q.map idOfNode).Nodup
  processed : ∀ e ∈ g, e.1 ∉ q.map idOfNode →
    ∃ k, alookup e.2.knotName ast.knots = some k ∧
      collectEdges ast k (pairOf e.2) k.choices = .ok e.2.edges ∧
      ∀ choice ∈ k.choices, ∀ t tk s2,
        choiceStep ast k (pairOf e.2) choice = .ok (some (t, tk, s2)) →
        generateNodeID t s2 ∈ keysOf g

/-- The invariant that holds while the choices of the dequeued node `cur`
are being processed; `done` is the prefix of choices already handled. -/
structure InnerInv (ast : Script) (cur : StoryNode) (k : Knot) (done : List Choice)
    (w : Work) : Prop where
  nodup : (keysOf w.graph).Nodup
  vis_iff : ∀ id, id ∈ w.visited ↔ id ∈ keysOf w.graph
  stored_id : ∀ e ∈ w.graph, e.1 = idOfNode e.2
  stored_reach : ∀ e ∈ w.graph, Reach ast (pairOf e.2)
  stored_wf : ∀ e ∈ w.graph, NodeWF ast e.2
  queue_mem : ∀ n ∈ w.queue, (idOfNode n, n) ∈ w.graph ∧ n.edges = []
  queue_nodup : (w.queue.map idOfNode).Nodup
  cur_stored : (idOfNode cur, cur) ∈ w.graph
  cur_not_queued : idOfNode cur ∉ w.queue.map idOfNode
  processed : ∀ e ∈ w.graph, e.1 ∉ w.queue.map idOfNode → e.1 ≠ idOfNode cur →
    ∃ k2, alookup e.2.knotName ast.knots = some k2 ∧
      collectEdges ast k2 (pairOf e.2) k2.choices = .ok e.2.edges ∧
      ∀ choice ∈ k2.choices, ∀ t tk s2,
        choiceStep ast k2 (pairOf e.2) choice = .ok (some (t, tk, s2)) →
        generateNodeID t s2 ∈ keysOf w.graph
  progress : collectEdges ast k (pairOf cur) done = .ok w.edges
  progress_succ : ∀ choice ∈ done, ∀ t tk s2,
    choiceStep ast k (pairOf cur) choice = .ok (some (t, tk, s2)) →
    generateNodeID t s2 ∈ keysOf w.graph

theorem inner_step {ast : Script} {cur : StoryNode} {k : Knot} {done : List Choice}
    {w w2 : Work} {choice : Choice}
    (hk : alookup cur.knotName ast.knots = some k)
    (hmem : choice ∈ k.choices)
    (hI : InnerInv ast cur k done w)
    (hp : processChoice ast k cur w choice = .ok w2) :
    InnerInv ast cur k (done ++ [choice]) w2 ∧ (∀ e ∈ w.graph, e ∈ w2.graph) ∧
      (∀ id ∈ keysOf w.graph, id ∈ keysOf w2.graph) := by
  rcases hc : choiceStep ast k (pairOf cur) choice with v | m | _
  · rcases v with _ | ⟨t, tk, s2⟩
    · -- skipped or dropped choice: no edge, nothing changes
      cases StepRes.ok.inj ((processChoice_none hc).symm.trans hp)
      refine ⟨?_, fun e he => he, fun id hid => hid⟩
      exact { hI with
        progress := collectEdges_snoc_none hI.progress hc
        progress_succ := by
          intro c2 hc2 t tk s2 hstep
          rcases List.mem_append.mp hc2 with hin | hin
          · exact hI.progress_succ c2 hin t tk s2 hstep
          · cases List.mem_singleton.mp hin
            rw [hc] at hstep
            exact absurd (StepRes.ok.inj hstep) (fun hh => Option.noConfusion hh) }
    · by_cases hv : generateNodeID t s2 ∈ w.visited
      · -- edge to an already-visited identity
        cases StepRes.ok.inj ((processChoice_some_visited hc hv).symm.trans hp)
        refine ⟨?_, fun e he => he, fun id hid => hid⟩
        exact { hI with
          progress := collectEdges_snoc_some hI.progress hc
          progress_succ := by
            intro c2 hc2 t2 tk2 s3 hstep
            rcases List.mem_append.mp hc2 with hin | hin
            · exact hI.progress_succ c2 hin t2 tk2 s3 hstep
            · cases List.mem_singleton.mp hin
              rw [hc] at hstep
              cases Option.some.inj (StepRes.ok.inj hstep)
              exact (hI.vis_iff _).mp hv }
      · -- fresh identity: register and enqueue the destination node
        cases StepRes.ok.inj ((processChoice_some_fresh hc hv).symm.trans hp)
        have hfresh : generateNodeID t s2 ∉ keysOf w.graph :=
          fun hcc => hv ((hI.vis_iff _).mpr hcc)
        have hanat := choiceStep_some hc
        obtain ⟨hcond, s0, happ, hres, hlook, hs2⟩ := hanat
        have hnew_id : idOfNode (createNode t tk s2) = generateNodeID t s2 := rfl
        have hnew_pair : pairOf (createNode t tk s2) = (t, s2) := rfl
        have hreach_new : Reach ast (t, s2) :=
          Reach.step (hI.stored_reach _ hI.cur_stored) hk hmem
            (stepSucc_of_choiceStep hk hc)
        refine ⟨?_, ?_, ?_⟩
        · refine
            { nodup := nodup_keysOf_setEntry hI.nodup
              vis_iff := ?_
              stored_id := ?_
              stored_reach := ?_
              stored_wf := ?_
              queue_mem := ?_
              queue_nodup := ?_
              cur_stored := ?_
              cur_not_queued := ?_
              processed := ?_
              progress := collectEdges_snoc_some hI.progress hc
              progress_succ := ?_ }
          · intro id
            constructor
            · intro hid
              rcases List.mem_cons.mp hid with rfl | hid2
              · exact mem_keysOf_setEntry.mpr (Or.inr rfl)
              · exact mem_keysOf_setEntry.mpr (Or.inl ((hI.vis_iff id).mp hid2))
            · intro hid
              rcases mem_keysOf_setEntry.mp hid with hid2 | rfl
              · exact List.mem_cons_of_mem _ ((hI.vis_iff id).mpr hid2)
              · exact List.mem_cons_self _ _
          · intro e he
            rcases mem_setEntry.mp (by exact he) with ⟨h1, h2⟩ | ⟨h1, h2⟩
            · rw [h1, h2]
              rfl
            · exact hI.stored_id e h2
          · intro e he
            rcases mem_setEntry.mp (by exact he) with ⟨h1, h2⟩ | ⟨h1, h2⟩
            · rw [h2, hnew_pair]
              exact hreach_new
            · exact hI.stored_reach e h2
          · intro e he
            rcases mem_setEntry.mp (by exact he) with ⟨h1, h2⟩ | ⟨h1, h2⟩
            · rw [h2]
              exact ⟨tk, hlook, rfl, rfl, rfl⟩
            · exact hI.stored_wf e h2
          · intro n hn
            rcases List.mem_append.mp hn with hin | hin
            · have hold := hI.queue_mem n hin
              refine ⟨mem_setEntry.mpr (Or.inr ⟨?_, hold.1⟩), hold.2⟩
              intro hh
              exact hfresh (hh ▸ entry_key_mem hold.1)
            · cases List.mem_singleton.mp hin
              exact ⟨mem_setEntry.mpr (Or.inl ⟨hnew_id.symm ▸ rfl, rfl⟩), rfl⟩
          · rw [List.map_append]
            refine List.Nodup.append hI.queue_nodup (by simp) ?_
            intro a ha hb
            rcases List.mem_map.mp ha with ⟨n, hn, rfl⟩
            simp only [List.map_cons, List.map_nil, List.mem_singleton] at hb
            have hkeys : idOfNode n ∈ keysOf w.graph :=
              entry_key_mem (hI.queue_mem n hn).1
            rw [hb, hnew_id] at hkeys
            exact hfresh hkeys
          · refine mem_setEntry.mpr (Or.inr ⟨?_, hI.cur_stored⟩)
            intro hh
            exact hfresh (hh ▸ entry_key_mem hI.cur_stored)
          · rw [List.map_append]
            intro hh
            rcases List.mem_append.mp hh with hin | hin
            · exact hI.cur_not_queued hin
            · simp only [List.map_cons, List.map_nil, List.mem_singleton] at hin
              rw [hnew_id] at hin
              exact hfresh (hin ▸ entry_key_mem hI.cur_stored)
          · intro e he hqe hce
            rcases mem_setEntry.mp (by exact he) with ⟨h1, h2⟩ | ⟨h1, h2⟩
            · exfalso
              apply hqe
              rw [List.map_append, h1]
              refine List.mem_append.mpr (Or.inr ?_)
              simp [hnew_id]
            · have hq2 : e.1 ∉ w.queue.map idOfNode := by
                intro hin
                exact hqe (by rw [List.map_append]; exact List.mem_append.mpr (Or.inl hin))
              obtain ⟨k2, hk2, hce2, hsucc2⟩ := hI.processed e h2 hq2 hce
              exact ⟨k2, hk2, hce2, fun c2 hc2 t2 tk2 s3 hstep =>
                mem_keysOf_setEntry.mpr (Or.inl (hsucc2 c2 hc2 t2 tk2 s3 hstep))⟩
          · intro c2 hc2 t2 tk2 s3 hstep
            rcases List.mem_append.mp hc2 with hin | hin
            · exact mem_keysOf_setEntry.mpr
                (Or.inl (hI.progress_succ c2 hin t2 tk2 s3 hstep))
            · cases List.mem_singleton.mp hin
              rw [hc] at hstep
              cases Option.some.inj (StepRes.ok.inj hstep)
              exact mem_keysOf_setEntry.mpr (Or.inr rfl)
        · intro e he
          refine mem_setEntry.mpr (Or.inr ⟨?_, he⟩)
          intro hh
          obtain ⟨a, b⟩ := e
          exact hfresh (hh ▸ entry_key_mem he)
        · intro id hid
          exact mem_keysOf_setEntry.mpr (Or.inl hid)
  · exact StepRes.noConfusion ((processChoice_err hc).symm.trans hp)
  · exact StepRes.noConfusion ((processChoice_panicked hc).symm.trans hp)

theorem inner_enter {ast : Script} {g : List (Str × StoryNode)} {vis : List Str}
    {cur : StoryNode} {rest : List StoryNode} {k : Knot}
    (hI : BuildInv ast g vis (cur :: rest))
    (hk : alookup cur.knotName ast.knots = some k) :
    InnerInv ast cur k [] { graph := g, visited := vis, queue := rest, edges := [] } := by
  have hcur := hI.queue_mem cur (List.mem_cons_self _ _)
  have hqn : idOfNode cur ∉ rest.map idOfNode ∧ (rest.map idOfNode).Nodup := by
    have h := hI.queue_nodup
    rw [List.map_cons, List.nodup_cons] at h
    exact h
  exact
    { nodup := hI.nodup
      vis_iff := hI.vis_iff
      stored_id := hI.stored_id
      stored_reach := hI.stored_reach
      stored_wf := hI.stored_wf
      queue_mem := fun n hn => hI.queue_mem n (List.mem_cons_of_mem _ hn)
      queue_nodup := hqn.2
      cur_stored := hcur.1
      cur_not_queued := hqn.1
      processed := by
        intro e he hq hc
        refine hI.processed e he ?_
        intro hin
        simp only [List.map_cons, List.mem_cons] at hin
        rcases hin with h1 | h1
        · exact hc h1
        · exact hq h1
      progress := by rw [collectEdges_nil]
      progress_succ := by intro c2 hc2; cases hc2 }

theorem processChoices_ok {ast : Script} {cur : StoryNode} {k : Knot}
    (hk : alookup cur.knotName ast.knots = some k) :
    ∀ (cs done : List Choice) (w w2 : Work), k.choices = done ++ cs →
      InnerInv ast cur k done w →
      processChoices ast k cur w cs = .ok w2 →
      InnerInv ast cur k k.choices w2 ∧ (∀ e ∈ w.graph, e ∈ w2.graph) ∧
        (∀ id ∈ keysOf w.graph, id ∈ keysOf w2.graph) := by
  intro cs
  induction cs with
  | nil =>
    intro done w w2 heq hI hp
    cases StepRes.ok.inj hp
    have hd : done = k.choices := by rw [heq, List.append_nil]
    rw [hd] at hI
    exact ⟨hI, fun e he => he, fun id h => h⟩
  | cons c cs2 ih =>
    intro done w w2 heq hI hp
    rcases hpc : processChoice ast k cur w c with w3 | m | _ <;>
      simp only [processChoices, hpc] at hp
    · have hmem : c ∈ k.choices := by
        rw [heq]
        exact List.mem_append.mpr (Or.inr (List.mem_cons_self _ _))
      obtain ⟨hI2, hsub, hkeys⟩ := inner_step hk hmem hI hpc
      have heq2 : k.choices = (done ++ [c]) ++ cs2 := by
        rw [heq, List.append_assoc]
        rfl
      obtain ⟨hI3, hsub2, hkeys2⟩ := ih (done ++ [c]) w3 w2 heq2 hI2 hp
      exact ⟨hI3, fun e he => hsub2 e (hsub e he), fun id h => hkeys2 id (hkeys id h)⟩
    · exact StepRes.noConfusion hp
    · exact StepRes.noConfusion hp

theorem inner_exit {ast : Script} {cur : StoryNode} {k : Knot} {w : Work}
    (hk : alookup cur.knotName ast.knots = some k)
    (hI : InnerInv ast cur k k.choices w) :
    BuildInv ast (setEntry w.graph (idOfNode cur) { cur with edges := w.edges })
        w.visited w.queue ∧
      (∀ e ∈ w.graph, ∃ n2,
        (e.1, n2) ∈ setEntry w.graph (idOfNode cur) { cur with edges := w.edges } ∧
          pairOf n2 = pairOf e.2) := by
  have hkeymem : idOfNode cur ∈ keysOf w.graph := entry_key_mem hI.cur_stored
  have hkeys_eq : keysOf (setEntry w.graph (idOfNode cur) { cur with edges := w.edges }) =
      keysOf w.graph := by
    rw [keysOf_setEntry, if_pos hkeymem]
  refine ⟨?_, ?_⟩
  · refine
      { nodup := by rw [hkeys_eq]; exact hI.nodup
        vis_iff := by
          intro id
          rw [hkeys_eq]
          exact hI.vis_iff id
        stored_id := ?_
        stored_reach := ?_
        stored_wf := ?_
        queue_mem := ?_
        queue_nodup := hI.queue_nodup
        processed := ?_ }
    · intro e he
      rcases mem_setEntry.mp (by exact he) with ⟨h1, h2⟩ | ⟨h1, h2⟩
      · rw [h1, h2]
        rfl
      · exact hI.stored_id e h2
    · intro e he
      rcases mem_setEntry.mp (by exact he) with ⟨h1, h2⟩ | ⟨h1, h2⟩
      · rw [h2]
        exact hI.stored_reach _ hI.cur_stored
      · exact hI.stored_reach e h2
    · intro e he
      rcases mem_setEntry.mp (by exact he) with ⟨h1, h2⟩ | ⟨h1, h2⟩
      · rw [h2]
        exact hI.stored_wf _ hI.cur_stored
      · exact hI.stored_wf e h2
    · intro n hn
      have hold := hI.queue_mem n hn
      refine ⟨mem_setEntry.mpr (Or.inr ⟨?_, hold.1⟩), hold.2⟩
      intro hh
      exact hI.cur_not_queued (hh ▸ List.mem_map.mpr ⟨n, hn, rfl⟩)
    · intro e he hq
      obtain ⟨e1, e2⟩ := e
      rcases mem_setEntry.mp (by exact he) with ⟨h1, h2⟩ | ⟨h1, h2⟩
      · subst h1
        subst h2
        refine ⟨k, hk, hI.progress, ?_⟩
        intro c2 hc2 t tk s2 hstep
        rw [hkeys_eq]
        exact hI.progress_succ c2 hc2 t tk s2 hstep
      · obtain ⟨k2, hk2, hce, hsucc⟩ := hI.processed (e1, e2) h2 hq h1
        refine ⟨k2, hk2, hce, ?_⟩
        intro c2 hc2 t tk s2 hstep
        rw [hkeys_eq]
        exact hsucc c2 hc2 t tk s2 hstep
  · intro e he
    by_cases h1 : e.1 = idOfNode cur
    · refine ⟨{ cur with edges := w.edges }, mem_setEntry.mpr (Or.inl ⟨h1, rfl⟩), ?_⟩
      have hid : e.1 = idOfNode e.2 := hI.stored_id e he
      have hid2 : idOfNode e.2 = idOfNode cur := by rw [← hid, h1]
      have hinj : e.2 = cur := by
        have hme : (idOfNode e.2, e.2) ∈ w.graph := by
          have : e = (e.1, e.2) := rfl
          rw [← hid]
          exact this ▸ he
        have := mem_alookup hI.nodup hme
        have h2 := mem_alookup hI.nodup hI.cur_stored
        rw [hid2] at this
        exact Option.some.inj (this.symm.trans h2)
      show pairOf { cur with edges := w.edges } = pairOf e.2
      rw [hinj]
      rfl
    · exact ⟨e.2, mem_setEntry.mpr (Or.inr ⟨h1, (by rw [show (e.1, e.2) = e from rfl]; exact he)⟩), rfl⟩

/-- What holds of the finished graph when the loop drains its queue. -/
structure FinalInv (ast : Script) (g : List (Str × StoryNode)) : Prop where
  nodup : (keysOf g).Nodup
  stored_id : ∀ e ∈ g, e.1 = idOfNode e.2
  stored_reach : ∀ e ∈ g, Reach ast (pairOf e.2)
  stored_wf : ∀ e ∈ g, NodeWF ast e.2
  processed : ∀ e ∈ g, ∃ k, alookup e.2.knotName ast.knots = some k ∧
    collectEdges ast k (pairOf e.2) k.choices = .ok e.2.edges ∧
    ∀ choice ∈ k.choices, ∀ t tk s2,
      choiceStep ast k (pairOf e.2) choice = .ok (some (t, tk, s2)) →
      generateNodeID t s2 ∈ keysOf g

theorem runQueue_nil (ast : Script) (fuel : Nat) (g : List (Str × StoryNode))
    (vis : List Str) : runQueue ast fuel g vis [] = .ok g := by
  cases fuel <;> rfl

theorem buildInv_final {ast : Script} {g : List (Str × StoryNode)} {vis : List Str}
    (hI : BuildInv ast g vis []) : FinalInv ast g :=
  { nodup := hI.nodup
    stored_id := hI.stored_id
    stored_reach := hI.stored_reach
    stored_wf := hI.stored_wf
    processed := fun e he => hI.processed e he (by simp) }

theorem runQueue_ok {ast : Script} :
    ∀ (fuel : Nat) (g : List (Str × StoryNode)) (vis : List Str) (q : List StoryNode)
      (g2 : List (Str × StoryNode)),
      BuildInv ast g vis q →
      runQueue ast fuel g vis q = .ok g2 →
      FinalInv ast g2 ∧ (∀ e ∈ g, ∃ n2, (e.1, n2) ∈ g2 ∧ pairOf n2 = pairOf e.2) := by
  intro fuel
  induction fuel with
  | zero =>
    intro g vis q g2 hI hr
    cases q with
    | nil =>
      rw [runQueue_nil] at hr
      cases BuildResult.ok.inj hr
      exact ⟨buildInv_final hI, fun e he => ⟨e.2, (by rw [show (e.1, e.2) = e from rfl]; exact he), rfl⟩⟩
    | cons cur rest => exact BuildResult.noConfusion hr
  | succ fuel ih =>
    intro g vis q g2 hI hr
    cases q with
    | nil =>
      rw [runQueue_nil] at hr
      cases BuildResult.ok.inj hr
      exact ⟨buildInv_final hI, fun e he => ⟨e.2, (by rw [show (e.1, e.2) = e from rfl]; exact he), rfl⟩⟩
    | cons cur rest =>
      rcases hkq : alookup cur.knotName ast.knots with _ | k <;>
        simp only [runQueue, hkq] at hr
      · exact BuildResult.noConfusion hr
      rcases hpc : processChoices ast k cur
          { graph := g, visited := vis, queue := rest, edges := [] } k.choices
          with w | m | _ <;> rw [hpc] at hr
      · have hkk : alookup cur.knotName ast.knots = some k := hkq
        have henter := inner_enter hI hkk
        obtain ⟨hI2, hsub, hkeys⟩ := processChoices_ok hkk k.choices [] _ w rfl henter hpc
        obtain ⟨hExit, hpres⟩ := inner_exit hkk hI2
        obtain ⟨hFin, hpres2⟩ := ih _ w.visited w.queue g2 hExit hr
        refine ⟨hFin, ?_⟩
        intro e he
        have he2 : e ∈ w.graph := hsub e he
        obtain ⟨n2, hn2, hp2⟩ := hpres e he2
        obtain ⟨n3, hn3, hp3⟩ := hpres2 (e.1, n2) hn2
        exact ⟨n3, hn3, hp3.trans hp2⟩
      · exact BuildResult.noConfusion hr
      · exact BuildResult.noConfusion hr

theorem buildGraph_initial_inv {ast : Script} {indexKnot : Knot}
    (hidx : alookup (str "index") ast.knots = some indexKnot) :
    BuildInv ast
      [(generateNodeID (str "index") (mkInitialState ast),
        createNode (str "index") indexKnot (mkInitialState ast))]
      [generateNodeID (str "index") (mkInitialState ast)]
      [createNode (str "index") indexKnot (mkInitialState ast)] := by
  refine
    { nodup := by simp [keysOf]
      vis_iff := by intro id; simp [keysOf]
      stored_id := ?_
      stored_reach := ?_
      stored_wf := ?_
      queue_mem := ?_
      queue_nodup := by simp
      processed := ?_ }
  · intro e he
    rw [List.mem_singleton] at he
    rw [he]
    rfl
  · intro e he
    rw [List.mem_singleton] at he
    rw [he]
    exact Reach.root
  · intro e he
    rw [List.mem_singleton] at he
    rw [he]
    exact ⟨indexKnot, hidx, rfl, rfl, rfl⟩
  · intro n hn
    rw [List.mem_singleton] at hn
    rw [hn]
    exact ⟨List.mem_singleton.mpr rfl, rfl⟩
  · intro e he hq
    exfalso
    rw [List.mem_singleton] at he
    apply hq
    rw [he]
    simp only [List.map_cons, List.map_nil, List.mem_singleton]
    rfl

theorem buildGraph_ok {ast : Script} {fuel : Nat} {g2 : List (Str × StoryNode)}
    (h : buildGraph ast fuel = .ok g2) :
    FinalInv ast g2 ∧
      (∃ indexKnot, alookup (str "index") ast.knots = some indexKnot) ∧
      ∃ n, (generateNodeID (str "index") (mkInitialState ast), n) ∈ g2 ∧
        pairOf n = (str "index", mkInitialState ast) := by
  rcases hidx : alookup (str "index") ast.knots with _ | indexKnot <;>
    simp only [buildGraph, hidx] at h
  · exact BuildResult.noConfusion h
  · obtain ⟨hFin, hpres⟩ := runQueue_ok fuel _ _ _ g2 (buildGraph_initial_inv hidx) h
    obtain ⟨n2, hn2, hp2⟩ := hpres _ (List.mem_singleton.mpr rfl)
    exact ⟨hFin, ⟨indexKnot, rfl⟩, n2, hn2, by rw [hp2]; rfl⟩

theorem stepSucc_some {ast : Script} {p : Str × StateMap} {choice : Choice}
    {q : Str × StateMap} (h : stepSucc ast p choice = some q) :
    ∃ k tk, alookup p.1 ast.knots = some k ∧
      choiceStep ast k p choice = .ok (some (q.1, tk, q.2)) := by
  unfold stepSucc at h
  split at h
  · exact Option.noConfusion h
  · rename_i k hk
    split at h
    · rename_i t tk s2 heq
      cases Option.some.inj h
      exact ⟨k, tk, hk, heq⟩
    · exact Option.noConfusion h

/-! ## Extensional state equality (Go maps are unordered; the list embedding
must compare states by lookup) -/

def stateEquiv (m1 m2 : StateMap) : Prop := ∀ k, alookup k m1 = alookup k m2

theorem stateEquiv_refl (m : StateMap) : stateEquiv m m := fun _ => rfl

theorem stateEquiv_symm {m1 m2 : StateMap} (h : stateEquiv m1 m2) : stateEquiv m2 m1 :=
  fun k => (h k).symm

theorem getState_congr {m1 m2 : StateMap} (h : stateEquiv m1 m2) (k : Str) :
    getState m1 k = getState m2 k := by
  rw [getState, getState, h k]

theorem setEntry_congr {m1 m2 : StateMap} (h : stateEquiv m1 m2) (k : Str) (v : Bool) :
    stateEquiv (setEntry m1 k v) (setEntry m2 k v) := by
  intro k2
  by_cases hk : k2 = k
  · rw [hk, alookup_setEntry_self, alookup_setEntry_self]
  · rw [alookup_setEntry_ne _ _ hk, alookup_setEntry_ne _ _ hk]
    exact h k2

theorem evalPart_congr {m1 m2 : StateMap} (h : stateEquiv m1 m2) (part : Str) :
    evalPart m1 part = evalPart m2 part := by
  simp only [evalPart, getState_congr h]

theorem evaluateCondition_congr {m1 m2 : StateMap} (h : stateEquiv m1 m2) (c : Str) :
    evaluateCondition c m1 = evaluateCondition c m2 := by
  unfold evaluateCondition
  generalize chSplit2 '&' '&' c = parts
  induction parts with
  | nil => rfl
  | cons p ps ih => simp only [List.all_cons, evalPart_congr h, ih]

theorem applyChange_eq_none {ast : Script} {st : StateMap} {c : Str}
    (hx : ((chSplit1 '=' c).drop 1).head? = none) : applyChange ast st c = none := by
  rw [applyChange_def, hx]

theorem applyChange_eq_noflag {ast : Script} {st : StateMap} {c second : Str}
    (hx : ((chSplit1 '=' c).drop 1).head? = some second)
    (hfl : alookup (mutName c) ast.globalStates = none) :
    applyChange ast st c =
      some (setEntry st (mutName c) (decide (chTrim second = str "true"))) := by
  rw [applyChange_def, hx, hfl]

theorem applyChange_eq_flag {ast : Script} {st : StateMap} {c second : Str} {fl : Bool}
    (hx : ((chSplit1 '=' c).drop 1).head? = some second)
    (hfl : alookup (mutName c) ast.globalStates = some fl) :
    applyChange ast st c =
      if (fl && !(decide (chTrim second = str "true"))) = true then some st
      else some (setEntry st (mutName c) (decide (chTrim second = str "true"))) := by
  rw [applyChange_def, hx, hfl]

theorem applyChange_congr {ast : Script} {m1 m2 : StateMap} (h : stateEquiv m1 m2)
    (c : Str) :
    (applyChange ast m1 c = none → applyChange ast m2 c = none) ∧
    (∀ r1, applyChange ast m1 c = some r1 →
      ∃ r2, applyChange ast m2 c = some r2 ∧ stateEquiv r1 r2) := by
  rcases hx : ((chSplit1 '=' c).drop 1).head? with _ | second
  · rw [@applyChange_eq_none ast m1 c hx, @applyChange_eq_none ast m2 c hx]
    exact ⟨fun _ => rfl, fun r1 hr => Option.noConfusion hr⟩
  · rcases hfl : alookup (mutName c) ast.globalStates with _ | fl
    · rw [@applyChange_eq_noflag ast m1 c second hx hfl,
        @applyChange_eq_noflag ast m2 c second hx hfl]
      refine ⟨fun hh => Option.noConfusion hh, ?_⟩
      intro r1 hr
      cases Option.some.inj hr
      exact ⟨_, rfl, setEntry_congr h _ _⟩
    · rw [@applyChange_eq_flag ast m1 c second fl hx hfl,
        @applyChange_eq_flag ast m2 c second fl hx hfl]
      by_cases hc : (fl && !(decide (chTrim second = str "true"))) = true
      · rw [if_pos hc, if_pos hc]
        refine ⟨fun hh => Option.noConfusion hh, ?_⟩
        intro r1 hr
        cases Option.some.inj hr
        exact ⟨m2, rfl, h⟩
      · rw [if_neg hc, if_neg hc]
        refine ⟨fun hh => Option.noConfusion hh, ?_⟩
        intro r1 hr
        cases Option.some.inj hr
        exact ⟨_, rfl, setEntry_congr h _ _⟩

theorem applyList_congr {ast : Script} :
    ∀ (changes : List Str) (m1 m2 r1 : StateMap), stateEquiv m1 m2 →
      applyList ast m1 changes = some r1 →
      ∃ r2, applyList ast m2 changes = some r2 ∧ stateEquiv r1 r2 := by
  intro changes
  induction changes with
  | nil =>
    intro m1 m2 r1 h hr
    cases Option.some.inj hr
    exact ⟨m2, rfl, h⟩
  | cons c cs ih =>
    intro m1 m2 r1 h hr
    rw [applyList_cons] at hr
    rcases h1 : applyChange ast m1 c with _ | s1
    · rw [h1] at hr
      exact Option.noConfusion hr
    · rw [h1, Option.some_bind] at hr
      obtain ⟨s2, hs2, hse⟩ := (applyChange_congr h c).2 s1 h1
      obtain ⟨r2, hr2, hre⟩ := ih s1 s2 r1 hse hr
      exact ⟨r2, by rw [applyList_cons, hs2, Option.some_bind]; exact hr2, hre⟩

theorem purgeLocals_congr {ast : Script} {m1 m2 : StateMap} (h : stateEquiv m1 m2) :
    stateEquiv (purgeLocals ast m1) (purgeLocals ast m2) := by
  unfold purgeLocals
  generalize ast.localStates = l
  induction l generalizing m1 m2 with
  | nil => exact h
  | cons p rest ih => exact ih (setEntry_congr h p.1 false)

theorem choiceStep_congr {ast : Script} {k : Knot} {u : Str} {s s2 : StateMap}
    {choice : Choice} {t : Str} {tk : Knot} {s3 : StateMap}
    (h : stateEquiv s s2)
    (hc : choiceStep ast k (u, s) choice = .ok (some (t, tk, s3))) :
    ∃ s4, choiceStep ast k (u, s2) choice = .ok (some (t, tk, s4)) ∧ stateEquiv s3 s4 := by
  obtain ⟨hcond, s0, happ, hres, hlook, hs3⟩ := choiceStep_some hc
  rw [applyStateChanges_eq_applyList] at happ
  obtain ⟨s0b, happ2, hs0e⟩ := applyList_congr choice.stateChanges s s2 s0 h happ
  have hcond2 : ¬(choice.condition ≠ [] ∧ evaluateCondition choice.condition s2 = false) := by
    intro hh
    exact hcond ⟨hh.1, by rw [evaluateCondition_congr h]; exact hh.2⟩
  refine ⟨if k.scene ≠ tk.scene then purgeLocals ast s0b else s0b, ?_, ?_⟩
  · have hcond3 :
        ¬(choice.condition ≠ [] ∧ evaluateCondition choice.condition (u, s2).2 = false) :=
      hcond2
    have happ3 : applyStateChanges (u, s2).2 choice ast = some s0b := happ2
    have hres2 : resolveTargetName choice (u, s2).1 = some t := hres
    rw [choiceStep_def, if_neg hcond3]
    simp only [happ3, hres2, hlook]
  · rw [hs3]
    by_cases hsc : k.scene ≠ tk.scene
    · rw [if_pos hsc, if_pos hsc]
      exact purgeLocals_congr hs0e
    · rw [if_neg hsc, if_neg hsc]
      exact hs0e

theorem reach_nodup {ast : Script} : ∀ p, Reach ast p → (keysOf p.2).Nodup := by
  intro p hp
  induction hp with
  | root => exact (mkInitialState_keys ast).2
  | @step p q k choice h1 h2 h3 h4 ih =>
    obtain ⟨k3, tk, hk3, hcs⟩ := stepSucc_some h4
    obtain ⟨hcond, s0, happ, hres, hlook, hs2⟩ := choiceStep_some hcs
    rw [applyStateChanges_eq_applyList] at happ
    have hn0 : (keysOf s0).Nodup := (applyList_keys _ _ _ happ).2 ih
    rw [hs2]
    by_cases hsc : k3.scene ≠ tk.scene
    · rw [if_pos hsc]
      exact (purgeFold_keys _ _).2 hn0
    · rw [if_neg hsc]
      exact hn0

/-! ## Completeness up to map equality -/

def pairEquiv (p q : Str × StateMap) : Prop := p.1 = q.1 ∧ stateEquiv p.2 q.2

/-- No two reachable pairs denoting different maps share a canonical
identity. -/
def InjOnReach (ast : Script) : Prop :=
  ∀ p q : Str × StateMap, Reach ast p → Reach ast q → idOfPair p = idOfPair q →
    pairEquiv p q

theorem stepSucc_of_choiceStep2 {ast : Script} {p : Str × StateMap} {k : Knot}
    {choice : Choice} {t : Str} {tk : Knot} {s2 : StateMap}
    (hk : alookup p.1 ast.knots = some k)
    (h : choiceStep ast k p choice = .ok (some (t, tk, s2))) :
    stepSucc ast p choice = some (t, s2) := by
  simp only [stepSucc, hk, h]

theorem reach_in_graph {ast : Script} {g2 : List (Str × StoryNode)}
    (hF : FinalInv ast g2) (hinj : InjOnReach ast)
    (hroot : ∃ n, (generateNodeID (str "index") (mkInitialState ast), n) ∈ g2 ∧
      pairOf n = (str "index", mkInitialState ast)) :
    ∀ p, Reach ast p → ∃ n, (idOfPair p, n) ∈ g2 ∧ pairEquiv (pairOf n) p := by
  intro p hp
  induction hp with
  | root =>
    obtain ⟨n, hn, hpair⟩ := hroot
    exact ⟨n, hn, by rw [hpair]; exact ⟨rfl, stateEquiv_refl _⟩⟩
  | @step p q k choice h1 h2 h3 h4 ih =>
    obtain ⟨n, hn, hpair⟩ := ih
    obtain ⟨k2, hk2, hce, hsuccs⟩ := hF.processed (idOfPair p, n) hn
    have hkn : n.knotName = p.1 := hpair.1
    have hk2b : alookup p.1 ast.knots = some k2 := by rw [← hkn]; exact hk2
    have hkk : k2 = k := Option.some.inj (hk2b.symm.trans h2)
    subst hkk
    obtain ⟨k3, tk, hk3, hcs⟩ := stepSucc_some h4
    have hk3b : k3 = k2 := Option.some.inj (hk3.symm.trans h2)
    subst hk3b
    have hse : stateEquiv p.2 n.state := stateEquiv_symm hpair.2
    have hcs2 : choiceStep ast k3 (p.1, p.2) choice = .ok (some (q.1, tk, q.2)) := hcs
    obtain ⟨s4, hcs3, hs4e⟩ := choiceStep_congr hse hcs2
    have hcs4 : choiceStep ast k3 (pairOf (idOfPair p, n).2) choice =
        .ok (some (q.1, tk, s4)) := by
      show choiceStep ast k3 (n.knotName, n.state) choice = _
      rw [hkn]
      exact hcs3
    have hid : generateNodeID q.1 s4 ∈ keysOf g2 := hsuccs choice h3 q.1 tk s4 hcs4
    have hreach_n : Reach ast (pairOf n) := hF.stored_reach (idOfPair p, n) hn
    have hkn2 : alookup (pairOf n).1 ast.knots = some k3 := by
      show alookup n.knotName ast.knots = some k3
      rw [hkn]
      exact h2
    have hcs5 : choiceStep ast k3 (pairOf n) choice = .ok (some (q.1, tk, s4)) := hcs4
    have hstep_n : stepSucc ast (pairOf n) choice = some (q.1, s4) :=
      stepSucc_of_choiceStep2 hkn2 hcs5
    have hrq4 : Reach ast (q.1, s4) := Reach.step hreach_n hkn2 h3 hstep_n
    have hrq : Reach ast q := Reach.step h1 h2 h3 h4
    have hideq : generateNodeID q.1 s4 = idOfPair q := by
      show generateNodeID q.1 s4 = generateNodeID q.1 q.2
      exact generateNodeID_congr (reach_nodup _ hrq4) (reach_nodup q hrq)
        (stateEquiv_symm hs4e)
    obtain ⟨e, he, hefst⟩ := List.mem_map.mp hid
    have hre : Reach ast (pairOf e.2) := hF.stored_reach e he
    have hids : idOfPair (pairOf e.2) = idOfPair q := by
      calc idOfPair (pairOf e.2) = e.1 := (hF.stored_id e he).symm
        _ = generateNodeID q.1 s4 := hefst
        _ = idOfPair q := hideq
    have hpe : pairEquiv (pairOf e.2) q := hinj _ _ hre hrq hids
    refine ⟨e.2, ?_, hpe⟩
    have h7 : idOfPair q = e.1 := by
      rw [← hids]
      exact (hF.stored_id e he).symm
    rw [h7, show (e.1, e.2) = e from rfl]
    exact he

/-! ## Syntactic name discipline sufficient for identity injectivity -/

def nameOK (k : Str) : Bool := k.all (fun c => decide (c ≠ ',') && decide (c ≠ '='))

/-- No knot name contains the `|` separator, and no declared variable name or
mutation-target name contains `,` or `=`.  Under this discipline canonical
identities are injective on reachable pairs. -/
def goodNames (ast : Script) : Bool :=
  ast.knots.all (fun e => e.1.all (fun c => decide (c ≠ '|'))) &&
  ast.globalStates.all (fun e => nameOK e.1) &&
  ast.localStates.all (fun e => nameOK e.1) &&
  ast.knots.all (fun e => e.2.choices.all
    (fun ch => ch.stateChanges.all (fun c => nameOK (mutName c))))

theorem all_ne_iff {x : Char} {s : Str} :
    s.all (fun c => decide (c ≠ x)) = true ↔ x ∉ s := by
  rw [List.all_eq_true]
  constructor
  · intro h hx
    have h2 := h x hx
    simp only [decide_eq_true_eq] at h2
    exact h2 rfl
  · intro h c hc
    simp only [decide_eq_true_eq]
    rintro rfl
    exact h hc

theorem nameOK_spec {k : Str} (h : nameOK k = true) : ',' ∉ k ∧ '=' ∉ k := by
  rw [nameOK, List.all_eq_true] at h
  constructor
  · intro hx
    have := h ',' hx
    simp at this
  · intro hx
    have := h '=' hx
    simp at this

theorem goodNames_spec {ast : Script} (h : goodNames ast = true) :
    (∀ e ∈ ast.knots, '|' ∉ e.1) ∧
    (∀ e ∈ ast.globalStates, ',' ∉ e.1 ∧ '=' ∉ e.1) ∧
    (∀ e ∈ ast.localStates, ',' ∉ e.1 ∧ '=' ∉ e.1) ∧
    (∀ e ∈ ast.knots, ∀ ch ∈ e.2.choices, ∀ c ∈ ch.stateChanges,
      ',' ∉ mutName c ∧ '=' ∉ mutName c) := by
  rw [goodNames] at h
  simp only [Bool.and_eq_true, List.all_eq_true] at h
  obtain ⟨⟨⟨h1, h2⟩, h3⟩, h4⟩ := h
  refine ⟨?_, fun e he => nameOK_spec (h2 e he),
    fun e he => nameOK_spec (h3 e he), fun e he ch hch c hc => ?_⟩
  · intro e he hx
    have h5 := h1 e he '|' hx
    simp at h5
  · exact nameOK_spec (h4 e he ch hch c hc)

/-- Along reachable pairs, the unit name is `|`-free and every state key is
`,`- and `=`-free. -/
theorem reach_names {ast : Script} (hg : goodNames ast = true) :
    ∀ p, Reach ast p → '|' ∉ p.1 ∧ ∀ k ∈ keysOf p.2, ',' ∉ k ∧ '=' ∉ k := by
  obtain ⟨hknots, hglob, hloc, hmut⟩ := goodNames_spec hg
  intro p hp
  induction hp with
  | root =>
    constructor
    · show '|' ∉ str "index"
      decide
    · intro k hk
      rcases (mkInitialState_keys ast).1 k hk with hin | hin
      · obtain ⟨e, he, rfl⟩ := List.mem_map.mp hin
        exact hglob e he
      · obtain ⟨e, he, rfl⟩ := List.mem_map.mp hin
        exact hloc e he
  | @step p q k choice h1 h2 h3 h4 ih =>
    obtain ⟨k3, tk, hk3, hcs⟩ := stepSucc_some h4
    have hk3b : k3 = k := Option.some.inj (hk3.symm.trans h2)
    subst hk3b
    obtain ⟨hcond, s0, happ, hres, hlook, hs2⟩ := choiceStep_some hcs
    constructor
    · exact hknots _ (alookup_mem hlook)
    · intro kn hkn
      rw [applyStateChanges_eq_applyList] at happ
      have hkeys0 : ∀ kx ∈ keysOf s0, ',' ∉ kx ∧ '=' ∉ kx := by
        intro kx hkx
        rcases (applyList_keys _ _ _ happ).1 kx hkx with hin | ⟨c, hc, rfl⟩
        · exact ih.2 kx hin
        · exact hmut (p.1, k3) (alookup_mem h2) choice h3 c hc
      rw [hs2] at hkn
      by_cases hsc : k3.scene ≠ tk.scene
      · rw [if_pos hsc] at hkn
        rcases (purgeFold_keys _ _).1 kn hkn with hin | hin
        · exact hkeys0 kn hin
        · obtain ⟨e, he, rfl⟩ := List.mem_map.mp hin
          exact hloc e he
      · rw [if_neg hsc] at hkn
        exact hkeys0 kn hkn

theorem goodNames_inj {ast : Script} (hg : goodNames ast = true) : InjOnReach ast := by
  intro p q hp hq hid
  obtain ⟨hu1, hk1⟩ := reach_names hg p hp
  obtain ⟨hu2, hk2⟩ := reach_names hg q hq
  have h := generateNodeID_inj hu1 hu2 hk1 hk2 (reach_nodup p hp) (reach_nodup q hq) hid
  exact ⟨h.1, h.2⟩

/-! ## Error analysis and edge provenance -/

theorem processChoice_err_inv {ast : Script} {k : Knot} {cur : StoryNode} {w : Work}
    {choice : Choice} {m : Str}
    (h : processChoice ast k cur w choice = .err m) :
    choiceStep ast k (pairOf cur) choice = .err m := by
  rcases hc : choiceStep ast k (pairOf cur) choice with v | m2 | _
  · rcases v with _ | ⟨t, tk, s2⟩
    · rw [processChoice_none hc] at h
      exact StepRes.noConfusion h
    · by_cases hv : generateNodeID t s2 ∈ w.visited
      · rw [processChoice_some_visited hc hv] at h
        exact StepRes.noConfusion h
      · rw [processChoice_some_fresh hc hv] at h
        exact StepRes.noConfusion h
  · rw [processChoice_err hc] at h
    cases StepRes.err.inj h
    rfl
  · rw [processChoice_panicked hc] at h
    exact StepRes.noConfusion h

theorem processChoices_err {ast : Script} {k : Knot} {cur : StoryNode} :
    ∀ (cs : List Choice) (w : Work) (m : Str),
      processChoices ast k cur w cs = .err m →
      ∃ choice ∈ cs, choiceStep ast k (pairOf cur) choice = .err m := by
  intro cs
  induction cs with
  | nil =>
    intro w m h
    exact StepRes.noConfusion h
  | cons c cs2 ih =>
    intro w m h
    rcases hpc : processChoice ast k cur w c with w3 | m2 | _ <;>
      simp only [processChoices, hpc] at h
    · obtain ⟨choice, hc2, hcs⟩ := ih w3 m h
      exact ⟨choice, List.mem_cons_of_mem _ hc2, hcs⟩
    · cases StepRes.err.inj h
      exact ⟨c, List.mem_cons_self _ _, processChoice_err_inv hpc⟩
    · exact StepRes.noConfusion h

/-- A structural error of the loop comes from a reachable pair one of whose
condition-satisfied choices resolves to a missing knot. -/
theorem runQueue_err {ast : Script} :
    ∀ (fuel : Nat) (g : List (Str × StoryNode)) (vis : List Str) (q : List StoryNode)
      (m : Str),
      BuildInv ast g vis q →
      runQueue ast fuel g vis q = .err m →
      ∃ p k choice, Reach ast p ∧ alookup p.1 ast.knots = some k ∧
        choice ∈ k.choices ∧
        ¬(choice.condition ≠ [] ∧ evaluateCondition choice.condition p.2 = false) ∧
        ∃ t, resolveTargetName choice p.1 = some t ∧ alookup t ast.knots = none := by
  intro fuel
  induction fuel with
  | zero =>
    intro g vis q m hI hr
    cases q with
    | nil =>
      rw [runQueue_nil] at hr
      exact BuildResult.noConfusion hr
    | cons cur rest => exact BuildResult.noConfusion hr
  | succ fuel ih =>
    intro g vis q m hI hr
    cases q with
    | nil =>
      rw [runQueue_nil] at hr
      exact BuildResult.noConfusion hr
    | cons cur rest =>
      rcases hkq : alookup cur.knotName ast.knots with _ | k <;>
        simp only [runQueue, hkq] at hr
      · exact BuildResult.noConfusion hr
      rcases hpc : processChoices ast k cur
          { graph := g, visited := vis, queue := rest, edges := [] } k.choices
          with w | m2 | _ <;> rw [hpc] at hr
      · have hkk : alookup cur.knotName ast.knots = some k := hkq
        have henter := inner_enter hI hkk
        obtain ⟨hI2, _, _⟩ := processChoices_ok hkk k.choices [] _ w rfl henter hpc
        obtain ⟨hExit, _⟩ := inner_exit hkk hI2
        exact ih _ w.visited w.queue m hExit hr
      · cases BuildResult.err.inj hr
        obtain ⟨choice, hcmem, hcs⟩ := processChoices_err k.choices _ _ hpc
        obtain ⟨hcond, s0, happ, t, hres, hlook, hm⟩ := choiceStep_err hcs
        have hreach : Reach ast (pairOf cur) :=
          hI.stored_reach _ (hI.queue_mem cur (List.mem_cons_self _ _)).1
        exact ⟨pairOf cur, k, choice, hreach, hkq, hcmem, hcond, t, hres, hlook⟩
      · exact BuildResult.noConfusion hr

theorem buildGraph_noIndex {ast : Script} (fuel : Nat)
    (h : alookup (str "index") ast.knots = none) :
    buildGraph ast fuel = .err noEntryMsg := by
  simp only [buildGraph, h]

theorem buildGraph_err {ast : Script} {fuel : Nat} {m : Str}
    (h : buildGraph ast fuel = .err m) :
    alookup (str "index") ast.knots = none ∨
      ∃ p k choice, Reach ast p ∧ alookup p.1 ast.knots = some k ∧
        choice ∈ k.choices ∧
        ¬(choice.condition ≠ [] ∧ evaluateCondition choice.condition p.2 = false) ∧
        ∃ t, resolveTargetName choice p.1 = some t ∧ alookup t ast.knots = none := by
  rcases hidx : alookup (str "index") ast.knots with _ | indexKnot <;>
    simp only [buildGraph, hidx] at h
  · exact Or.inl rfl
  · exact Or.inr (runQueue_err fuel _ _ _ m (buildGraph_initial_inv hidx) h)

theorem collectEdges_mem {ast : Script} {k : Knot} {p : Str × StateMap} :
    ∀ {cs : List Choice} {es : List StoryEdge}, collectEdges ast k p cs = .ok es →
      ∀ e ∈ es, ∃ choice ∈ cs, ∃ t tk s2,
        choiceStep ast k p choice = .ok (some (t, tk, s2)) ∧ e = mkEdge choice t s2 := by
  intro cs
  induction cs with
  | nil =>
    intro es h e he
    cases StepRes.ok.inj h
    cases he
  | cons c cs2 ih =>
    intro es h e he
    rcases hc : choiceStep ast k p c with v | m | _ <;>
      simp only [collectEdges, hc] at h
    · rcases v with _ | ⟨t, tk, s2⟩
      · obtain ⟨choice, hcm, r⟩ := ih h e he
        exact ⟨choice, List.mem_cons_of_mem _ hcm, r⟩
      · rcases h3 : collectEdges ast k p cs2 with es3 | m3 | _ <;> rw [h3] at h
        · cases StepRes.ok.inj h
          rcases List.mem_cons.mp he with rfl | he2
          · exact ⟨c, List.mem_cons_self _ _, t, tk, s2, hc, rfl⟩
          · obtain ⟨choice, hcm, r⟩ := ih h3 e he2
            exact ⟨choice, List.mem_cons_of_mem _ hcm, r⟩
        · exact StepRes.noConfusion h
        · exact StepRes.noConfusion h
    · exact StepRes.noConfusion h
    · exact StepRes.noConfusion h

theorem collectEdges_choices {ast : Script} {k : Knot} {p : Str × StateMap} :
    ∀ {cs : List Choice} {es : List StoryEdge}, collectEdges ast k p cs = .ok es →
      ∀ choice ∈ cs, ∃ r, choiceStep ast k p choice = .ok r := by
  intro cs
  induction cs with
  | nil => intro es _ choice hc; cases hc
  | cons c cs2 ih =>
    intro es h choice hc
    rcases hcs : choiceStep ast k p c with v | m | _ <;>
      simp only [collectEdges, hcs] at h
    · rcases v with _ | ⟨t, tk, s2⟩
      · rcases List.mem_cons.mp hc with rfl | hc2
        · exact ⟨none, hcs⟩
        · exact ih h choice hc2
      · rcases h3 : collectEdges ast k p cs2 with es3 | m3 | _ <;> rw [h3] at h
        · rcases List.mem_cons.mp hc with rfl | hc2
          · exact ⟨some (t, tk, s2), hcs⟩
          · exact ih h3 choice hc2
        · exact StepRes.noConfusion h
        · exact StepRes.noConfusion h
    · exact StepRes.noConfusion h
    · exact StepRes.noConfusion h

/-! ## Concrete fixtures -/

def mkKnot (n sc : String) (cs : List Choice) : Knot :=
  { name := str n, scene := str sc, body := [], choices := cs, isEnd := false }

def mkChoice (txt : String) (chg : List String) (tgt : String) : Choice :=
  { text := str txt, condition := [], stateChanges := chg.map str,
    targetKnot := str tgt, stitch := [] }

/-- The door/key scenario of the spec: two declared states are not needed,
one global `has_key` suffices. -/
def doorAst : Script :=
  { globalStates := [(str "has_key", false)], localStates := [],
    knots :=
      [ (str "index",
          { name := str "index", scene := [],
            body := [{ condition := [], content := str "The door is locked." }],
            choices :=
              [ { text := str "Look for a key.", condition := str "has_key == false",
                  stateChanges := [str "has_key = true"], targetKnot := [], stitch := [] },
                { text := str "Open the door.", condition := str "has_key == true",
                  stateChanges := [], targetKnot := str "victory", stitch := [] } ],
            isEnd := false }),
        (str "victory",
          { name := str "victory", scene := [],
            body := [{ condition := [], content := str "You opened the door!" }],
            choices := [], isEnd := true }) ] }

/-- Identity-collision script: the knot name `a|b` makes two distinct
reachable pairs share one canonical identity. -/
def collAst : Script :=
  { globalStates := [], localStates := [],
    knots :=
      [ (str "index", mkKnot "index" ""
          [ mkChoice "c1" ["b|c = false"] "a", mkChoice "c2" ["c = false"] "a|b" ]),
        (str "a", mkKnot "a" "" []),
        (str "a|b", mkKnot "a|b" "" []) ] }

/-- Flag-monotonicity collision script: the stored node at the shared
identity has the flag `f` false although every edge into it was built from
a successor state with `f` true. -/
def flagAst : Script :=
  { globalStates := [(str "f", true)], localStates := [],
    knots :=
      [ (str "index", mkKnot "index" ""
          [ mkChoice "c1" [] "k|f=true,g",
            mkChoice "c2" ["f = true", "g|f = false"] "m" ]),
        (str "k|f=true,g", mkKnot "k|f=true,g" "" []),
        (str "m", mkKnot "m" "" [mkChoice "c3" [] "k"]),
        (str "k", mkKnot "k" "" []) ] }

/-- Scene-purge collision script: an edge crossing scenes points at a
stored node whose local variable is true. -/
def sceneAst : Script :=
  { globalStates := [], localStates := [(str "c", true)],
    knots :=
      [ (str "index", mkKnot "index" "A" [mkCh0, mkCh1]),
        (str "d", mkKnot "d" "B" [mkChd]),
        (str "w", mkKnot "w" "A" [mkChw]),
        (str "d|c=true,x", mkKnot "d|c=true,x" "B" []) ] }
where
  mkCh0 : Choice := mkChoice "c0" [] "d"
  mkCh1 : Choice := mkChoice "c1" [] "w"
  mkChd : Choice := mkChoice "cd" ["c = true", "x|c = false"] "d"
  mkChw : Choice := mkChoice "cw" [] "d|c=true,x"

/-- Stitch script: a local-anchor choice with no explicit target, crossing
scenes. -/
def stitchAst : Script :=
  { globalStates := [], localStates := [(str "loc", true)],
    knots :=
      [ (str "index",
          { name := str "index", scene := str "A", body := [],
            choices := [{ text := str "jump", condition := [],
                          stateChanges := [str "loc = true"],
                          targetKnot := [], stitch := str ".other" }],
            isEnd := false }),
        (str "other", mkKnot "other" "B" []) ] }

def noIndexAst : Script :=
  { globalStates := [], localStates := [],
    knots := [(str "start", mkKnot "start" "" [])] }

def badTargetAst : Script :=
  { globalStates := [], localStates := [],
    knots := [(str "index", mkKnot "index" "" [mkChoice "go" [] "zzz"])] }

/-- Simple flag script with clean names, used as a witness vehicle. -/
def flagOkAst : Script :=
  { globalStates := [(str "maj", true)], localStates := [],
    knots :=
      [ (str "index", mkKnot "index" ""
          [ mkChoice "set" ["maj = true"] "", mkChoice "unset" ["maj = false"] "" ]) ] }

/-- Simple scene-purge script with clean names, used as a witness vehicle. -/
def purgeAst : Script :=
  { globalStates := [], localStates := [(str "loc", true)],
    knots :=
      [ (str "index", mkKnot "index" "A"
          [ mkChoice "set" ["loc = true"] "", mkChoice "go" [] "room" ]),
        (str "room", mkKnot "room" "B" []) ] }

def emptyAst : Script := { globalStates := [], localStates := [], knots := [] }

/-! ## Claim C7: canonical node identity -/

/-- Claim C7, counterexample: two inputs that differ in the unit name
produce the same identity string, so clause (b) of the claim fails as
stated. -/
theorem generateNodeID_collision :
    str "a" ≠ str "a|b" ∧
      generateNodeID (str "a") [(str "b|c", false)] =
        generateNodeID (str "a|b") [(str "c", false)] := by
  constructor
  · decide
  · decide

/-- Claim C7 (amended): the identity is insertion-order independent and has
the sorted `unit|name=bool,...` shape; the distinctness clause holds once
unit names contain no `|` and variable names contain no `,` or `=` (the
counterexample shows it fails without that restriction). -/
theorem generateNodeID_spec :
    (∀ (u : Str) (m1 m2 : StateMap), (keysOf m1).Nodup → (keysOf m2).Nodup →
      (∀ k, alookup k m1 = alookup k m2) → generateNodeID u m1 = generateNodeID u m2) ∧
    (∀ (u : Str) (m : StateMap),
      generateNodeID u m = u ++ '|' :: joinComma ((List.insertionSort StrLe (keysOf m)).map
        (fun k => k ++ '=' :: boolStr (getState m k))) ∧
      (List.insertionSort StrLe (keysOf m)).Perm (keysOf m) ∧
      List.Sorted StrLe (List.insertionSort StrLe (keysOf m))) ∧
    (∀ (u1 u2 : Str) (m1 m2 : StateMap), '|' ∉ u1 → '|' ∉ u2 →
      (∀ k ∈ keysOf m1, ',' ∉ k ∧ '=' ∉ k) → (∀ k ∈ keysOf m2, ',' ∉ k ∧ '=' ∉ k) →
      (keysOf m1).Nodup → (keysOf m2).Nodup →
      generateNodeID u1 m1 = generateNodeID u2 m2 →
      u1 = u2 ∧ ∀ k, alookup k m1 = alookup k m2) := by
  refine ⟨fun u m1 m2 h1 h2 hl => generateNodeID_congr h1 h2 hl, ?_, ?_⟩
  · intro u m
    exact ⟨generateNodeID_def u m, List.perm_insertionSort StrLe (keysOf m),
      List.sorted_insertionSort StrLe (keysOf m)⟩
  · intro u1 u2 m1 m2 hu1 hu2 hk1 hk2 hn1 hn2 heq
    exact generateNodeID_inj hu1 hu2 hk1 hk2 hn1 hn2 heq

/-- Claim C7, witness: the order-independence clause applied to one map
written in two insertion orders. -/
theorem generateNodeID_spec_witness :
    (keysOf [(str "a", true), (str "b", false)]).Nodup ∧
    (keysOf [(str "b", false), (str "a", true)]).Nodup ∧
    (∀ k, alookup k [(str "a", true), (str "b", false)] =
      alookup k [(str "b", false), (str "a", true)]) ∧
    generateNodeID (str "u") [(str "a", true), (str "b", false)] =
      generateNodeID (str "u") [(str "b", false), (str "a", true)] := by
  have h3 : ∀ k, alookup k [(str "a", true), (str "b", false)] =
      alookup k [(str "b", false), (str "a", true)] := by
    intro k
    by_cases ha : k = str "a"
    · rw [ha]; rfl
    · by_cases hb : k = str "b"
      · rw [hb]; rfl
      · show (if str "a" = k then some true else if str "b" = k then some false else none) =
          (if str "b" = k then some false else if str "a" = k then some true else none)
        rw [if_neg (fun hh => ha hh.symm), if_neg (fun hh => hb hh.symm),
          if_neg (fun hh => hb hh.symm), if_neg (fun hh => ha hh.symm)]
  exact ⟨by decide, by decide, h3,
    generateNodeID_spec.1 (str "u") _ _ (by decide) (by decide) h3⟩

/-! ## Claim C8: empty condition -/

/-- Claim C8, counterexample: the condition evaluator itself returns false
on the empty condition string (the Go loop body hits the operatorless
branch and returns false). -/
theorem evaluateCondition_empty_false : evaluateCondition [] [] = false := rfl

/-- Claim C8 (amended): `evaluateCondition` returns false on the empty
string for every state, but both call sites short-circuit empty conditions
before calling it, so an empty condition is always treated as satisfied:
the builder never skips an empty-condition choice because of its condition,
and `createNode` always selects an empty-condition text block. -/
theorem emptyCondition_behavior :
    (∀ st : StateMap, evaluateCondition [] st = false) ∧
    (∀ (ast : Script) (k : Knot) (p : Str × StateMap) (choice : Choice),
      choice.condition = [] → choiceStep ast k p choice = .ok none →
      ∃ s0, applyStateChanges p.2 choice ast = some s0 ∧
        resolveTargetName choice p.1 = none) ∧
    (∀ (b : TextBlock) (rest : List TextBlock) (st : StateMap),
      b.condition = [] → selectContent st (b :: rest) = b.content) := by
  refine ⟨fun st => rfl, ?_, ?_⟩
  · intro ast k p choice hcond h
    rw [choiceStep_def] at h
    rw [if_neg (by intro hh; exact hh.1 hcond)] at h
    split at h
    · exact StepRes.noConfusion h
    · rename_i s0 happ
      split at h
      · rename_i hres
        exact ⟨s0, happ, hres⟩
      · rename_i t hres
        split at h
        · exact StepRes.noConfusion h
        · exact Option.noConfusion (StepRes.ok.inj h)
  · intro b rest st hcond
    rw [selectContent]
    rw [if_pos (by rw [hcond]; simp)]

/-- Claim C8, witness: the counter-behaviour and the call-site behaviour at
concrete inputs. -/
theorem emptyCondition_behavior_witness :
    ((mkChoice "x" [] "").condition = [] ∧
      choiceStep emptyAst (mkKnot "k" "" []) (str "k", []) (mkChoice "x" [] "") = .ok none ∧
      ∃ s0, applyStateChanges [] (mkChoice "x" [] "") emptyAst = some s0 ∧
        resolveTargetName (mkChoice "x" [] "") (str "k") = none) ∧
    (({ condition := [], content := str "hi" } : TextBlock).condition = [] ∧
      selectContent [] [{ condition := [], content := str "hi" }] = str "hi") := by
  constructor
  · refine ⟨rfl, rfl, ?_⟩
    exact (emptyCondition_behavior.2.1 emptyAst (mkKnot "k" "" []) (str "k", [])
      (mkChoice "x" [] "") rfl rfl)
  · exact ⟨rfl, emptyCondition_behavior.2.2 _ [] [] rfl⟩

/-! ## Claim C9: undeclared variables read as false -/

/-- Claim C9: an atomic comparison naming a variable absent from the state
vector evaluates against the value false and never fails; in particular
`name == false` holds and `name == true` does not. -/
theorem undeclared_reads_false (st : StateMap)
    (h : alookup (str "name") st = none) :
    getState st (str "name") = false ∧
    evaluateCondition (str "name == false") st = true ∧
    evaluateCondition (str "name == true") st = false := by
  have hg : getState st (str "name") = false := by
    rw [getState, h]
    rfl
  refine ⟨hg, ?_, ?_⟩
  · have hred : evaluateCondition (str "name == false") st =
        ((getState st (str "name") == false) && true) := rfl
    rw [hred, hg]
    rfl
  · have hred : evaluateCondition (str "name == true") st =
        ((getState st (str "name") == true) && true) := rfl
    rw [hred, hg]
    rfl

/-- Claim C9, witness. -/
theorem undeclared_reads_false_witness :
    alookup (str "name") [(str "other", true)] = none ∧
    (getState [(str "other", true)] (str "name") = false ∧
      evaluateCondition (str "name == false") [(str "other", true)] = true ∧
      evaluateCondition (str "name == true") [(str "other", true)] = false) :=
  ⟨by decide, undeclared_reads_false [(str "other", true)] (by decide)⟩

/-! ## Claim C10: applyStateChanges totality -/

/-- Claim C10: `applyStateChanges` returns a state whenever every mutation
string contains an `=`; a mutation without `=` reaches the out-of-bounds
access of `parts[1]` (the `none` branch of the embedding). -/
theorem applyStateChanges_totality :
    (∀ (st : StateMap) (choice : Choice) (ast : Script),
      (∀ c ∈ choice.stateChanges, '=' ∈ c) →
      ∃ s2, applyStateChanges st choice ast = some s2) ∧
    applyStateChanges [] (mkChoice "bad" ["x"] "") emptyAst = none := by
  constructor
  · intro st choice ast hall
    rw [applyStateChanges_eq_applyList]
    exact applyList_total choice.stateChanges st hall
  · rfl

/-- Claim C10, witness: the totality clause at a concrete well-formed
mutation list. -/
theorem applyStateChanges_totality_witness :
    (∀ c ∈ (mkChoice "ok" ["x = true"] "").stateChanges, '=' ∈ c) ∧
    ∃ s2, applyStateChanges [] (mkChoice "ok" ["x = true"] "") emptyAst = some s2 :=
  ⟨by decide, applyStateChanges_totality.1 [] (mkChoice "ok" ["x = true"] "") emptyAst
    (by decide)⟩

/-! ## Claim C5: no dangling edges -/

/-- Mid-traversal no-dangling invariant over the loop's working state. -/
def NoDangling (w : Work) : Prop :=
  (∀ id ∈ w.visited, id ∈ keysOf w.graph) ∧
  (∀ e ∈ w.graph, ∀ ed ∈ e.2.edges, ed.targetNodeID ∈ keysOf w.graph) ∧
  (∀ ed ∈ w.edges, ed.targetNodeID ∈ keysOf w.graph)

instance instDecNoDangling (w : Work) : Decidable (NoDangling w) := by
  unfold NoDangling
  infer_instance

/-- Claim C5: every edge of the finished graph targets a key of the node
mapping, and the invariant is preserved by each fully processed choice of
the dequeued node. -/
theorem no_dangling_edges (ast : Script) :
    (∀ (fuel : Nat) (g2 : List (Str × StoryNode)), buildGraph ast fuel = .ok g2 →
      ∀ e ∈ g2, ∀ ed ∈ e.2.edges, ed.targetNodeID ∈ keysOf g2) ∧
    (∀ (k : Knot) (cur : StoryNode) (w w2 : Work) (choice : Choice),
      processChoice ast k cur w choice = .ok w2 → NoDangling w → NoDangling w2) := by
  constructor
  · intro fuel g2 hok e he ed hed
    obtain ⟨hFin, _, _⟩ := buildGraph_ok hok
    obtain ⟨k, hk, hce, hsucc⟩ := hFin.processed e he
    obtain ⟨choice, hcm, t, tk, s2, hcs, rfl⟩ := collectEdges_mem hce ed hed
    exact hsucc choice hcm t tk s2 hcs
  · intro k cur w w2 choice hp hnd
    obtain ⟨hvis, hgr, hed⟩ := hnd
    rcases hc : choiceStep ast k (pairOf cur) choice with v | m | _
    · rcases v with _ | ⟨t, tk, s2⟩
      · cases StepRes.ok.inj ((processChoice_none hc).symm.trans hp)
        exact ⟨hvis, hgr, hed⟩
      · by_cases hv : generateNodeID t s2 ∈ w.visited
        · cases StepRes.ok.inj ((processChoice_some_visited hc hv).symm.trans hp)
          refine ⟨hvis, hgr, ?_⟩
          intro ed2 hed2
          rcases List.mem_append.mp hed2 with hin | hin
          · exact hed ed2 hin
          · cases List.mem_singleton.mp hin
            exact hvis _ hv
        · cases StepRes.ok.inj ((processChoice_some_fresh hc hv).symm.trans hp)
          refine ⟨?_, ?_, ?_⟩
          · intro id hid
            rcases List.mem_cons.mp hid with rfl | hid2
            · exact mem_keysOf_setEntry.mpr (Or.inr rfl)
            · exact mem_keysOf_setEntry.mpr (Or.inl (hvis id hid2))
          · intro e he ed2 hed2
            rcases mem_setEntry.mp (by exact he) with ⟨h1, h2⟩ | ⟨h1, h2⟩
            · rw [h2] at hed2
              cases hed2
            · exact mem_keysOf_setEntry.mpr (Or.inl (hgr e h2 ed2 hed2))
          · intro ed2 hed2
            rcases List.mem_append.mp hed2 with hin | hin
            · exact mem_keysOf_setEntry.mpr (Or.inl (hed ed2 hin))
            · cases List.mem_singleton.mp hin
              exact mem_keysOf_setEntry.mpr (Or.inr rfl)
    · exact StepRes.noConfusion ((processChoice_err hc).symm.trans hp)
    · exact StepRes.noConfusion ((processChoice_panicked hc).symm.trans hp)

def doorIndexKnot : Knot :=
  match alookup (str "index") doorAst.knots with
  | some k => k
  | none => mkKnot "missing" "" []

def doorRoot : StoryNode := createNode (str "index") doorIndexKnot (mkInitialState doorAst)

def doorW0 : Work :=
  { graph := [(idOfNode doorRoot, doorRoot)], visited := [idOfNode doorRoot],
    queue := [], edges := [] }

def doorChoice : Choice := doorIndexKnot.choices.headD (mkChoice "" [] "")

def workOf : StepRes Work → Work
  | .ok w => w
  | _ => { graph := [], visited := [], queue := [], edges := [] }

/-- Claim C5, witness: the finished door/key graph has no dangling edges,
and one concrete processed choice preserves the invariant. -/
theorem no_dangling_edges_witness :
    (buildGraph doorAst 10 = .ok (graphOf (buildGraph doorAst 10)) ∧
      ∀ e ∈ graphOf (buildGraph doorAst 10), ∀ ed ∈ e.2.edges,
        ed.targetNodeID ∈ keysOf (graphOf (buildGraph doorAst 10))) ∧
    (processChoice doorAst doorIndexKnot doorRoot doorW0 doorChoice =
        .ok (workOf (processChoice doorAst doorIndexKnot doorRoot doorW0 doorChoice)) ∧
      NoDangling doorW0 ∧
      NoDangling (workOf (processChoice doorAst doorIndexKnot doorRoot doorW0 doorChoice))) :=
  ⟨⟨rfl, (no_dangling_edges doorAst).1 10 _ rfl⟩,
   ⟨rfl, by decide,
    (no_dangling_edges doorAst).2 doorIndexKnot doorRoot doorW0 _ doorChoice rfl
      (by decide)⟩⟩

/-! ## Claim C6: failure behaviour -/

theorem choiceStep_none_anatomy {ast : Script} {k : Knot} {p : Str × StateMap}
    {choice : Choice} (h : choiceStep ast k p choice = .ok none) :
    (choice.condition ≠ [] ∧ evaluateCondition choice.condition p.2 = false) ∨
    (∃ s0, applyStateChanges p.2 choice ast = some s0 ∧
      resolveTargetName choice p.1 = none) := by
  rw [choiceStep_def] at h
  split at h
  · rename_i hc
    exact Or.inl hc
  · split at h
    · exact StepRes.noConfusion h
    · rename_i s0 happ
      split at h
      · rename_i hres
        exact Or.inr ⟨s0, happ, hres⟩
      · rename_i t hres
        split at h
        · exact StepRes.noConfusion h
        · exact Option.noConfusion (StepRes.ok.inj h)

/-- Claim C6: `buildGraph` fails with a structural error precisely for a
missing entry knot or a condition-satisfied choice whose resolved
destination is absent; a failure carries no graph (the `err` constructor
has none), and a success returns the complete graph: every stored node
carries the full edge list of its knot's choices, and no satisfied choice
of any stored node resolves to a missing knot. -/
theorem error_behavior (ast : Script) (fuel : Nat) :
    (alookup (str "index") ast.knots = none → buildGraph ast fuel = .err noEntryMsg) ∧
    (∀ m, buildGraph ast fuel = .err m →
      alookup (str "index") ast.knots = none ∨
        ∃ p k choice, Reach ast p ∧ alookup p.1 ast.knots = some k ∧
          choice ∈ k.choices ∧
          ¬(choice.condition ≠ [] ∧ evaluateCondition choice.condition p.2 = false) ∧
          ∃ t, resolveTargetName choice p.1 = some t ∧ alookup t ast.knots = none) ∧
    (∀ g2, buildGraph ast fuel = .ok g2 →
      alookup (str "index") ast.knots ≠ none ∧
      ∀ e ∈ g2, ∃ k, alookup e.2.knotName ast.knots = some k ∧
        collectEdges ast k (pairOf e.2) k.choices = .ok e.2.edges ∧
        ∀ choice ∈ k.choices,
          ¬(choice.condition ≠ [] ∧ evaluateCondition choice.condition e.2.state = false) →
          ∀ t, resolveTargetName choice e.2.knotName = some t →
            alookup t ast.knots ≠ none) := by
  refine ⟨buildGraph_noIndex fuel, fun m h => buildGraph_err h, ?_⟩
  intro g2 hok
  obtain ⟨hFin, ⟨indexKnot, hidx⟩, _⟩ := buildGraph_ok hok
  refine ⟨by rw [hidx]; exact fun hh => Option.noConfusion hh, ?_⟩
  intro e he
  obtain ⟨k, hk, hce, hsucc⟩ := hFin.processed e he
  refine ⟨k, hk, hce, ?_⟩
  intro choice hcm hcond t hres hnone
  obtain ⟨r, hr⟩ := collectEdges_choices hce choice hcm
  rcases r with _ | ⟨t2, tk2, s2⟩
  · rcases choiceStep_none_anatomy hr with hg | ⟨s0, _, hres2⟩
    · exact hcond hg
    · simp only [pairOf] at hres2
      rw [hres] at hres2
      exact Option.noConfusion hres2
  · obtain ⟨_, s0, _, hres2, hlook2, _⟩ := choiceStep_some hr
    simp only [pairOf] at hres2
    rw [hres] at hres2
    cases Option.some.inj hres2
    rw [hlook2] at hnone
    exact Option.noConfusion hnone

/-- Claim C6, witness: the three clauses at concrete scripts — a script
without an entry knot, a script whose only choice targets a missing knot,
and the door/key script that succeeds. -/
theorem error_behavior_witness :
    (alookup (str "index") noIndexAst.knots = none ∧
      buildGraph noIndexAst 5 = .err noEntryMsg) ∧
    (buildGraph badTargetAst 5 = .err (missingKnotMsg (str "zzz")) ∧
      (alookup (str "index") badTargetAst.knots = none ∨
        ∃ p k choice, Reach badTargetAst p ∧ alookup p.1 badTargetAst.knots = some k ∧
          choice ∈ k.choices ∧
          ¬(choice.condition ≠ [] ∧ evaluateCondition choice.condition p.2 = false) ∧
          ∃ t, resolveTargetName choice p.1 = some t ∧
            alookup t badTargetAst.knots = none)) ∧
    (buildGraph doorAst 10 = .ok (graphOf (buildGraph doorAst 10)) ∧
      ∀ e ∈ graphOf (buildGraph doorAst 10),
        ∃ k, alookup e.2.knotName doorAst.knots = some k ∧
          collectEdges doorAst k (pairOf e.2) k.choices = .ok e.2.edges ∧
          ∀ choice ∈ k.choices,
            ¬(choice.condition ≠ [] ∧
              evaluateCondition choice.condition e.2.state = false) →
            ∀ t, resolveTargetName choice e.2.knotName = some t →
              alookup t doorAst.knots ≠ none) :=
  ⟨⟨rfl, (error_behavior noIndexAst 5).1 rfl⟩,
   ⟨rfl, (error_behavior badTargetAst 5).2.1 _ rfl⟩,
   ⟨rfl, ((error_behavior doorAst 10).2.2 _ rfl).2⟩⟩

/-! ## Claim C3: flag monotonicity -/

/-- Side condition of the claim: flag-class variable names are disjoint
from the local-class names. -/
def flagLocalDisjoint (ast : Script) : Bool :=
  ast.globalStates.all
    (fun e => !e.2 || !(ast.localStates.any (fun e2 => decide (e2.1 = e.1))))

theorem flagLocalDisjoint_spec {ast : Script} (h : flagLocalDisjoint ast = true)
    {v : Str} (hv : alookup v ast.globalStates = some true) :
    v ∉ keysOf ast.localStates := by
  have hm := alookup_mem hv
  rw [flagLocalDisjoint, List.all_eq_true] at h
  have h2 := h _ hm
  simp only [Bool.not_true, Bool.false_or, Bool.not_eq_true', List.any_eq_false,
    decide_eq_false_iff_not] at h2
  intro hk
  obtain ⟨e2, he2, he2v⟩ := List.mem_map.mp hk
  exact h2 e2 he2 (decide_eq_true he2v)

/-- Claim C3, counterexample: in `flagAst` the flag `f` is monotone at the
level of built successor states, flag and local names are disjoint, yet an
edge of the finished graph leaves a node with `f` true and lands (by
canonical-identity lookup) on a stored node with `f` false, because the
knot name `k|f=true,g` collides with the identity of another pair. -/
theorem flag_monotonicity_cex :
    isOk (buildGraph flagAst 10) = true ∧
    flagLocalDisjoint flagAst = true ∧
    alookup (str "f") flagAst.globalStates = some true ∧
    ∃ e ∈ graphOf (buildGraph flagAst 10), ∃ ed ∈ e.2.edges,
      getState e.2.state (str "f") = true ∧
      (alookup ed.targetNodeID (graphOf (buildGraph flagAst 10))).map
          (fun n2 => getState n2.state (str "f")) = some false := by
  refine ⟨by decide, by decide, by decide, ?_⟩
  decide

/-- Claim C3 (amended): under the naming discipline that makes canonical
identities injective, and with flag names disjoint from local names, a
flag-class variable true in an edge's source node is true in the stored
node its target identity resolves to; `applyStateChanges` preserves a true
flag through any mutation list, and a single mutation setting a true-valued
flag variable to false leaves the map unchanged. -/
theorem flag_monotonicity (ast : Script) :
    (∀ (fuel : Nat) (g2 : List (Str × StoryNode)), buildGraph ast fuel = .ok g2 →
      goodNames ast = true → flagLocalDisjoint ast = true →
      ∀ v, alookup v ast.globalStates = some true →
      ∀ e ∈ g2, ∀ ed ∈ e.2.edges, getState e.2.state v = true →
        ∃ n2, alookup ed.targetNodeID g2 = some n2 ∧ getState n2.state v = true) ∧
    (∀ (st s2 : StateMap) (choice : Choice) (v : Str),
      alookup v ast.globalStates = some true →
      applyStateChanges st choice ast = some s2 →
      getState st v = true → getState s2 v = true) ∧
    (∀ (st : StateMap) (c second : Str),
      ((chSplit1 '=' c).drop 1).head? = some second →
      alookup (mutName c) ast.globalStates = some true →
      chTrim second ≠ str "true" →
      applyChange ast st c = some st) := by
  refine ⟨?_, ?_, ?_⟩
  · intro fuel g2 hok hg hd v hv e he ed hed hsrc
    obtain ⟨hFin, _, _⟩ := buildGraph_ok hok
    obtain ⟨k, hk, hce, hsucc⟩ := hFin.processed e he
    obtain ⟨choice, hcm, t, tk, s2, hcs, rfl⟩ := collectEdges_mem hce ed hed
    obtain ⟨hcond, s0, happ, hres, hlook, hs2⟩ := choiceStep_some hcs
    rw [applyStateChanges_eq_applyList] at happ
    have hs0 : getState s0 v = true :=
      applyList_flag hv choice.stateChanges _ s0 happ hsrc
    have hs2v : getState s2 v = true := by
      rw [hs2]
      split
      · rw [getState_purgeLocals_ne (flagLocalDisjoint_spec hd hv)]
        exact hs0
      · exact hs0
    have hkey : generateNodeID t s2 ∈ keysOf g2 := hsucc choice hcm t tk s2 hcs
    obtain ⟨n2, hn2⟩ : ∃ n2, alookup (generateNodeID t s2) g2 = some n2 := by
      rcases hh : alookup (generateNodeID t s2) g2 with _ | n2
      · exact absurd hkey (alookup_eq_none.mp hh)
      · exact ⟨n2, rfl⟩
    have hmem2 : (generateNodeID t s2, n2) ∈ g2 := alookup_mem hn2
    have hid : idOfNode n2 = generateNodeID t s2 := (hFin.stored_id _ hmem2).symm
    have hreachT : Reach ast (t, s2) :=
      Reach.step (hFin.stored_reach e he) (show alookup (pairOf e.2).1 ast.knots = some k
        from hk) hcm (stepSucc_of_choiceStep2 hk hcs)
    have hequiv : pairEquiv (pairOf n2) (t, s2) :=
      goodNames_inj hg _ _ (hFin.stored_reach _ hmem2) hreachT hid
    exact ⟨n2, hn2, (getState_congr hequiv.2 v).trans hs2v⟩
  · intro st s2 choice v hv happ hst
    rw [applyStateChanges_eq_applyList] at happ
    exact applyList_flag hv choice.stateChanges st s2 happ hst
  · intro st c second hx hfl hne
    rw [applyChange_eq_flag hx hfl, decide_eq_false hne]
    rfl

/-- Claim C3 (amended), witness: the three clauses at the clean-named flag
script `flagOkAst` and a concrete flag-preserving mutation list. -/
theorem flag_monotonicity_witness :
    (buildGraph flagOkAst 10 = .ok (graphOf (buildGraph flagOkAst 10)) ∧
      goodNames flagOkAst = true ∧ flagLocalDisjoint flagOkAst = true ∧
      alookup (str "maj") flagOkAst.globalStates = some true ∧
      ∀ e ∈ graphOf (buildGraph flagOkAst 10), ∀ ed ∈ e.2.edges,
        getState e.2.state (str "maj") = true →
        ∃ n2, alookup ed.targetNodeID (graphOf (buildGraph flagOkAst 10)) = some n2 ∧
          getState n2.state (str "maj") = true) ∧
    (applyStateChanges [(str "maj", true)] (mkChoice "unset" ["maj = false"] "")
        flagOkAst = some [(str "maj", true)] ∧
      getState [(str "maj", true)] (str "maj") = true) ∧
    (((chSplit1 '=' (str "maj = false")).drop 1).head? = some (str " false") ∧
      alookup (mutName (str "maj = false")) flagOkAst.globalStates = some true ∧
      chTrim (str " false") ≠ str "true" ∧
      applyChange flagOkAst [(str "maj", true)] (str "maj = false") =
        some [(str "maj", true)]) :=
  ⟨⟨rfl, by decide, by decide, by decide,
    (flag_monotonicity flagOkAst).1 10 _ rfl (by decide) (by decide) _ (by decide)⟩,
   ⟨rfl,
    (flag_monotonicity flagOkAst).2.1 [(str "maj", true)] [(str "maj", true)]
      (mkChoice "unset" ["maj = false"] "") (str "maj") (by decide) rfl (by decide)⟩,
   ⟨rfl, by decide, by decide,
    (flag_monotonicity flagOkAst).2.2 [(str "maj", true)] (str "maj = false")
      (str " false") rfl (by decide) (by decide)⟩⟩

/-! ## Claim C4: scene purge -/

/-- Claim C4, counterexample: in `sceneAst` an edge whose source node's
scene differs from the scene of the stored node its target identity
resolves to lands on a state with the local variable `c` true, because the
knot name `d|c=true,x` collides with the identity of another pair. -/
theorem scene_purge_cex :
    isOk (buildGraph sceneAst 10) = true ∧
    (str "c") ∈ keysOf sceneAst.localStates ∧
    ∃ e ∈ graphOf (buildGraph sceneAst 10), ∃ ed ∈ e.2.edges,
      (alookup ed.targetNodeID (graphOf (buildGraph sceneAst 10))).map
          (fun n2 => (decide (e.2.scene ≠ n2.scene), getState n2.state (str "c"))) =
        some (true, true) := by
  refine ⟨by decide, by decide, ?_⟩
  decide

/-- Claim C4 (amended): under the naming discipline that makes canonical
identities injective, every edge of the finished graph whose source node's
scene label differs from the scene label of the stored target node has all
local-class variables false in that target node's state, and `purgeLocals`
itself forces every local-class variable to false. -/
theorem scene_purge (ast : Script) :
    (∀ (fuel : Nat) (g2 : List (Str × StoryNode)), buildGraph ast fuel = .ok g2 →
      goodNames ast = true →
      ∀ e ∈ g2, ∀ ed ∈ e.2.edges, ∀ n2, alookup ed.targetNodeID g2 = some n2 →
        e.2.scene ≠ n2.scene →
        ∀ v ∈ keysOf ast.localStates, getState n2.state v = false) ∧
    (∀ (st : StateMap) (v : Str), v ∈ keysOf ast.localStates →
      getState (purgeLocals ast st) v = false) := by
  constructor
  · intro fuel g2 hok hg e he ed hed n2 hn2 hscene v hv
    obtain ⟨hFin, _, _⟩ := buildGraph_ok hok
    obtain ⟨k, hk, hce, hsucc⟩ := hFin.processed e he
    obtain ⟨choice, hcm, t, tk, s2, hcs, rfl⟩ := collectEdges_mem hce ed hed
    obtain ⟨hcond, s0, happ, hres, hlook, hs2⟩ := choiceStep_some hcs
    have hmem2 : ((mkEdge choice t s2).targetNodeID, n2) ∈ g2 := alookup_mem hn2
    have hid : idOfNode n2 = generateNodeID t s2 := (hFin.stored_id _ hmem2).symm
    have hreachT : Reach ast (t, s2) :=
      Reach.step (hFin.stored_reach e he)
        (show alookup (pairOf e.2).1 ast.knots = some k from hk) hcm
        (stepSucc_of_choiceStep2 hk hcs)
    have hequiv : pairEquiv (pairOf n2) (t, s2) :=
      goodNames_inj hg _ _ (hFin.stored_reach _ hmem2) hreachT hid
    obtain ⟨k1, hk1, hsc1, _, _⟩ := hFin.stored_wf e he
    cases Option.some.inj (hk1.symm.trans hk)
    obtain ⟨k2, hk2, hsc2, _, _⟩ := hFin.stored_wf _ hmem2
    have hkn : n2.knotName = t := hequiv.1
    rw [hkn] at hk2
    cases Option.some.inj (hk2.symm.trans hlook)
    have hne : k.scene ≠ tk.scene := by
      intro hcontra
      exact hscene (by rw [hsc1, hcontra, ← hsc2])
    have hs2v : getState s2 v = false := by
      rw [hs2, if_pos hne]
      exact getState_purgeLocals_mem hv
    exact (getState_congr hequiv.2 v).trans hs2v
  · exact fun st v hv => getState_purgeLocals_mem hv

/-- Claim C4 (amended), witness: the clean-named scene script `purgeAst`
and a concrete purged map. -/
theorem scene_purge_witness :
    (buildGraph purgeAst 10 = .ok (graphOf (buildGraph purgeAst 10)) ∧
      goodNames purgeAst = true ∧
      ∀ e ∈ graphOf (buildGraph purgeAst 10), ∀ ed ∈ e.2.edges,
        ∀ n2, alookup ed.targetNodeID (graphOf (buildGraph purgeAst 10)) = some n2 →
        e.2.scene ≠ n2.scene →
        ∀ v ∈ keysOf purgeAst.localStates, getState n2.state v = false) ∧
    ((str "loc") ∈ keysOf purgeAst.localStates ∧
      getState (purgeLocals purgeAst [(str "loc", true)]) (str "loc") = false) :=
  ⟨⟨rfl, by decide, (scene_purge purgeAst).1 10 _ rfl (by decide)⟩,
   ⟨by decide, (scene_purge purgeAst).2 [(str "loc", true)] _ (by decide)⟩⟩

/-! ## Claim C2: local-anchor (stitch) edges -/

/-- Claim C2, counterexample: in `stitchAst` the only choice carries the
anchor marker `.other` and no explicit target, yet its edge leads to a
node of the different unit `other`, and the scene purge runs on that edge:
the local `loc` is false in the target although the choice set it true. -/
theorem stitch_edge_cex :
    isOk (buildGraph stitchAst 10) = true ∧
    ∃ e ∈ graphOf (buildGraph stitchAst 10), ∃ ed ∈ e.2.edges,
      e.2.knotName = str "index" ∧ ed.stitch = str ".other" ∧
      (alookup ed.targetNodeID (graphOf (buildGraph stitchAst 10))).map
          (fun n2 => (n2.knotName, getState n2.state (str "loc"))) =
        some (str "other", false) := by
  refine ⟨by decide, ?_⟩
  decide

/-- Claim C2 (amended): a choice carrying an anchor marker resolves its
destination to the marker with the leading dot removed, treated as a unit
name; hence under the injective-naming discipline every such edge of a
finished graph leads to a stored node of that unit (not necessarily the
source unit), and the scene purge applies per the plain comparison of the
source unit's scene with that destination unit's scene. -/
theorem stitch_edge_behavior (ast : Script) :
    (∀ (choice : Choice), choice.stitch ≠ [] → trimDot choice.stitch ≠ [] →
      ∀ cur, resolveTargetName choice cur = some (trimDot choice.stitch)) ∧
    (∀ (fuel : Nat) (g2 : List (Str × StoryNode)), buildGraph ast fuel = .ok g2 →
      goodNames ast = true →
      ∀ e ∈ g2, ∀ ed ∈ e.2.edges, ed.stitch ≠ [] → trimDot ed.stitch ≠ [] →
        ∃ n2, alookup ed.targetNodeID g2 = some n2 ∧
          n2.knotName = trimDot ed.stitch ∧
          ∃ tk, alookup (trimDot ed.stitch) ast.knots = some tk ∧
            (e.2.scene ≠ tk.scene → ∀ v ∈ keysOf ast.localStates,
              getState n2.state v = false)) := by
  have hres1 : ∀ (choice : Choice), choice.stitch ≠ [] → trimDot choice.stitch ≠ [] →
      ∀ cur, resolveTargetName choice cur = some (trimDot choice.stitch) := by
    intro choice h1 h2 cur
    rw [resolveTargetName_def, if_pos h1, if_pos h2]
  refine ⟨hres1, ?_⟩
  intro fuel g2 hok hg e he ed hed hst htd
  obtain ⟨hFin, _, _⟩ := buildGraph_ok hok
  obtain ⟨k, hk, hce, hsucc⟩ := hFin.processed e he
  obtain ⟨choice, hcm, t, tk, s2, hcs, rfl⟩ := collectEdges_mem hce ed hed
  obtain ⟨hcond, s0, happ, hres, hlook, hs2⟩ := choiceStep_some hcs
  have ht : t = trimDot choice.stitch := by
    have h2 := hres1 choice hst htd (pairOf e.2).1
    rw [hres] at h2
    exact Option.some.inj h2
  have hkey : generateNodeID t s2 ∈ keysOf g2 := hsucc choice hcm t tk s2 hcs
  obtain ⟨n2, hn2⟩ : ∃ n2, alookup (generateNodeID t s2) g2 = some n2 := by
    rcases hh : alookup (generateNodeID t s2) g2 with _ | n2
    · exact absurd hkey (alookup_eq_none.mp hh)
    · exact ⟨n2, rfl⟩
  have hmem2 : (generateNodeID t s2, n2) ∈ g2 := alookup_mem hn2
  have hid : idOfNode n2 = generateNodeID t s2 := (hFin.stored_id _ hmem2).symm
  have hreachT : Reach ast (t, s2) :=
    Reach.step (hFin.stored_reach e he)
      (show alookup (pairOf e.2).1 ast.knots = some k from hk) hcm
      (stepSucc_of_choiceStep2 hk hcs)
  have hequiv : pairEquiv (pairOf n2) (t, s2) :=
    goodNames_inj hg _ _ (hFin.stored_reach _ hmem2) hreachT hid
  refine ⟨n2, hn2, ?_, tk, ?_, ?_⟩
  · exact hequiv.1.trans ht
  · exact ht ▸ hlook
  · intro hscene v hv
    obtain ⟨k1, hk1, hsc1, _, _⟩ := hFin.stored_wf e he
    cases Option.some.inj (hk1.symm.trans hk)
    have hne : k.scene ≠ tk.scene := by
      rw [← hsc1]
      exact hscene
    have hs2v : getState s2 v = false := by
      rw [hs2, if_pos hne]
      exact getState_purgeLocals_mem hv
    exact (getState_congr hequiv.2 v).trans hs2v

/-- Claim C2 (amended), witness: the anchor script `stitchAst`, whose
single anchor choice resolves to the unit `other`. -/
theorem stitch_edge_behavior_witness :
    (({ text := str "jump", condition := [], stateChanges := [str "loc = true"],
        targetKnot := [], stitch := str ".other" } : Choice).stitch ≠ [] ∧
      trimDot (str ".other") ≠ [] ∧
      resolveTargetName
        { text := str "jump", condition := [], stateChanges := [str "loc = true"],
          targetKnot := [], stitch := str ".other" } (str "index") =
        some (trimDot (str ".other"))) ∧
    (buildGraph stitchAst 10 = .ok (graphOf (buildGraph stitchAst 10)) ∧
      goodNames stitchAst = true ∧
      ∀ e ∈ graphOf (buildGraph stitchAst 10), ∀ ed ∈ e.2.edges,
        ed.stitch ≠ [] → trimDot ed.stitch ≠ [] →
        ∃ n2, alookup ed.targetNodeID (graphOf (buildGraph stitchAst 10)) = some n2 ∧
          n2.knotName = trimDot ed.stitch ∧
          ∃ tk, alookup (trimDot ed.stitch) stitchAst.knots = some tk ∧
            (e.2.scene ≠ tk.scene → ∀ v ∈ keysOf stitchAst.localStates,
              getState n2.state v = false)) :=
  ⟨⟨by decide, by decide,
    (stitch_edge_behavior stitchAst).1 _ (by decide) (by decide) (str "index")⟩,
   ⟨rfl, by decide, (stitch_edge_behavior stitchAst).2 10 _ rfl (by decide)⟩⟩
/-! ## Claim C1: the node set is the reachable set -/

/-- Claim C1, counterexample: `collAst` builds successfully, the pair
(unit `a|b`, state {c ↦ false}) is reachable in one condition-satisfied
choice, yet no node of the output graph carries the unit `a|b`: its
canonical identity collides with that of another reachable pair, which
claims the single slot. -/
theorem reachable_node_set_cex :
    isOk (buildGraph collAst 10) = true ∧
    Reach collAst (str "a|b", [(str "c", false)]) ∧
    (graphOf (buildGraph collAst 10)).all
        (fun e => decide (e.2.knotName ≠ str "a|b")) = true := by
  refine ⟨by decide, ?_, by decide⟩
  exact @Reach.step collAst (str "index", mkInitialState collAst)
    (str "a|b", [(str "c", false)])
    (mkKnot "index" "" [mkChoice "c1" ["b|c = false"] "a",
      mkChoice "c2" ["c = false"] "a|b"])
    (mkChoice "c2" ["c = false"] "a|b")
    Reach.root rfl (by decide) rfl

/-- Claim C1 (amended): under the naming discipline that makes canonical
identities injective on reachable pairs, the node set of a successful
build is exactly the reachable set: every stored node's (unit, state) pair
is reachable; every reachable pair is stored under its canonical identity,
up to extensional equality of state maps; and no two stored entries denote
the same pair. -/
theorem reachable_node_set (ast : Script) (fuel : Nat)
    (g2 : List (Str × StoryNode)) (hok : buildGraph ast fuel = .ok g2)
    (hg : goodNames ast = true) :
    (∀ e ∈ g2, Reach ast (pairOf e.2)) ∧
    (∀ p, Reach ast p → ∃ n, (idOfPair p, n) ∈ g2 ∧ pairEquiv (pairOf n) p) ∧
    (∀ e1 ∈ g2, ∀ e2 ∈ g2, pairEquiv (pairOf e1.2) (pairOf e2.2) → e1 = e2) := by
  obtain ⟨hFin, _, hroot⟩ := buildGraph_ok hok
  refine ⟨hFin.stored_reach, reach_in_graph hFin (goodNames_inj hg) hroot, ?_⟩
  intro e1 he1 e2 he2 hpe
  rcases e1 with ⟨i1, n1⟩
  rcases e2 with ⟨i2, n2⟩
  have hname : n1.knotName = n2.knotName := hpe.1
  have hid : idOfNode n1 = idOfNode n2 := by
    rw [idOfNode, idOfNode, hname]
    exact generateNodeID_congr (reach_nodup _ (hFin.stored_reach _ he1))
      (reach_nodup _ (hFin.stored_reach _ he2)) hpe.2
  have hk1 : i1 = i2 :=
    (hFin.stored_id _ he1).trans (hid.trans (hFin.stored_id _ he2).symm)
  cases hk1
  cases Option.some.inj
    ((mem_alookup hFin.nodup he1).symm.trans (mem_alookup hFin.nodup he2))
  rfl

/-- Claim C1 (amended), witness: the door/key script, whose graph holds
exactly the three reachable pairs. -/
theorem reachable_node_set_witness :
    buildGraph doorAst 10 = .ok (graphOf (buildGraph doorAst 10)) ∧
    goodNames doorAst = true ∧
    ((∀ e ∈ graphOf (buildGraph doorAst 10), Reach doorAst (pairOf e.2)) ∧
      (∀ p, Reach doorAst p →
        ∃ n, (idOfPair p, n) ∈ graphOf (buildGraph doorAst 10) ∧
          pairEquiv (pairOf n) p) ∧
      (∀ e1 ∈ graphOf (buildGraph doorAst 10), ∀ e2 ∈ graphOf (buildGraph doorAst 10),
        pairEquiv (pairOf e1.2) (pairOf e2.2) → e1 = e2)) :=
  ⟨rfl, by decide, reachable_node_set doorAst 10 _ rfl (by decide)⟩
